import Mathlib

/-!
Verification of the goko cover-tree engine against its specification.

The repository ships only the Python callers (tests, examples); the core
engine (cover-tree construction, k-NN queries, path tracing, and the
Dirichlet KL-divergence trackers) is the library those callers bind to.
Definitions below that embed that core are modelled from the spec, as their
doc comments state; the Python caller functions that do live in the
repository are embedded directly from their source.

Numeric values are modelled exactly: 32-bit float data and arithmetic are
represented by rational numbers, so "up to floating-point tolerance" in the
spec becomes exact equality here, and the KL-divergence layer is modelled
over the real numbers.
-/

namespace Goko

/-- Modelled from the spec: the metric of §3, "a pure function
d(x,y) → f32 ≥ 0 satisfying d(x,x)=0 and the triangle inequality"
(the default L2 metric is symmetric).  Distances are modelled as
rationals. -/
structure PMetric (P : Type) where
  d : P → P → ℚ
  d_nonneg : ∀ x y, 0 ≤ d x y
  d_self : ∀ x, d x x = 0
  d_symm : ∀ x y, d x y = d y x
  d_triangle : ∀ x y z, d x z ≤ d x y + d y z

/-- The default one-dimensional L2 metric, used by the literal
four-point scenario of the spec. -/
def absM : PMetric ℚ where
  d x y := |x - y|
  d_nonneg _ _ := abs_nonneg _
  d_self _ := by simp
  d_symm _ _ := abs_sub_comm _ _
  d_triangle _ _ _ := abs_sub_le _ _ _

/-- Point lookup in the point store: the store is an indexed list of
points, identified by an integer point index. -/
def pt {P : Type} [Inhabited P] (pts : List P) (i : ℕ) : P :=
  pts.getD i default

/-- Modelled from the spec: a node of the built cover tree (§3 data model).
Each node has a scale index, a center point index, children one scale
below, and singleton point indices attached directly to the node. -/
inductive CTree where
  | mk (si : Int) (center : ℕ) (children : List CTree) (singles : List ℕ)
deriving Repr

namespace CTree

def si : CTree → Int
  | .mk s _ _ _ => s

def center : CTree → ℕ
  | .mk _ c _ _ => c

def children : CTree → List CTree
  | .mk _ _ ch _ => ch

def singles : CTree → List ℕ
  | .mk _ _ _ sg => sg

/-- Node address: the pair of scale index and center point index (§3). -/
def addr (t : CTree) : Int × ℕ := (t.si, t.center)

mutual

/-- Coverage set of a node: all point indices reachable beneath it.  For a
leaf this is the center plus the singletons; for an internal node the
children's coverage sets (which contain the center through the
self-child). -/
def coverage : CTree → List ℕ
  | .mk _ c [] sg => c :: sg
  | .mk _ _ (t :: ts) _ => coverageL (t :: ts)

def coverageL : List CTree → List ℕ
  | [] => []
  | t :: ts => coverage t ++ coverageL ts

end

mutual

/-- Center point indices of all nodes of a subtree (with repetition along
self-child chains). -/
def centers : CTree → List ℕ
  | .mk _ c ch _ => c :: centersL ch

def centersL : List CTree → List ℕ
  | [] => []
  | t :: ts => centers t ++ centersL ts

end

mutual

/-- Singleton point indices collected over a whole subtree. -/
def singlesAll : CTree → List ℕ
  | .mk _ _ ch sg => sg ++ singlesAllL ch

def singlesAllL : List CTree → List ℕ
  | [] => []
  | t :: ts => singlesAll t ++ singlesAllL ts

end

end CTree

/-- Lexicographic order on (distance, point index) pairs: the order in
which k-NN candidates are ranked, with ties on the distance broken by the
lower point index. -/
def keyLe (a b : ℚ × ℕ) : Prop :=
  a.1 < b.1 ∨ (a.1 = b.1 ∧ a.2 ≤ b.2)

/-- Strict version of the candidate order. -/
def keyLt (a b : ℚ × ℕ) : Prop :=
  a.1 < b.1 ∨ (a.1 = b.1 ∧ a.2 < b.2)

instance : DecidableRel keyLe := fun a b => by
  unfold keyLe; infer_instance

instance : DecidableRel keyLt := fun a b => by
  unfold keyLt; infer_instance

instance : IsTrans (ℚ × ℕ) keyLe where
  trans a b c hab hbc := by
    rcases hab with h | ⟨h, h2⟩ <;> rcases hbc with h' | ⟨h', h2'⟩
    · exact Or.inl (h.trans h')
    · exact Or.inl (h' ▸ h)
    · exact Or.inl (h ▸ h')
    · exact Or.inr ⟨h.trans h', h2.trans h2'⟩

instance : IsTotal (ℚ × ℕ) keyLe where
  total a b := by
    rcases lt_trichotomy a.1 b.1 with h | h | h
    · exact Or.inl (Or.inl h)
    · rcases Nat.le_total a.2 b.2 with h2 | h2
      · exact Or.inl (Or.inr ⟨h, h2⟩)
      · exact Or.inr (Or.inr ⟨h.symm, h2⟩)
    · exact Or.inr (Or.inl h)

instance : IsAntisymm (ℚ × ℕ) keyLe where
  antisymm a b hab hba := by
    rcases hab with h | ⟨h, h2⟩ <;> rcases hba with h' | ⟨h', h2'⟩
    · exact absurd (h.trans h') (lt_irrefl _)
    · exact absurd h (h' ▸ lt_irrefl _)
    · exact absurd h' (h ▸ lt_irrefl _)
    · exact Prod.ext h (Nat.le_antisymm h2 h2')

theorem keyLt_iff_le_not_le (a b : ℚ × ℕ) : keyLt a b ↔ keyLe a b ∧ ¬ keyLe b a := by
  constructor
  · rintro (h | ⟨h, h2⟩)
    · exact ⟨Or.inl h, by rintro (h' | ⟨h', _⟩); exacts [absurd (h.trans h') (lt_irrefl _), absurd h (h' ▸ lt_irrefl _)]⟩
    · refine ⟨Or.inr ⟨h, h2.le⟩, ?_⟩
      rintro (h' | ⟨h', h2'⟩)
      · exact absurd h' (h ▸ lt_irrefl _)
      · exact absurd h2 (not_lt.mpr h2')
  · rintro ⟨h | ⟨h, h2⟩, hn⟩
    · exact Or.inl h
    · refine Or.inr ⟨h, lt_of_le_of_ne h2 fun he => hn (Or.inr ⟨h.symm, he ▸ le_rfl⟩)⟩

/-- Modelled from the spec: a built cover tree as exposed to the callers —
the point store, the metric, the geometric base for covering radii, and
the root node.  The arena is read-only after construction, so the tree is
a plain immutable value here. -/
structure Tree (P : Type) [Inhabited P] where
  M : PMetric P
  pts : List P
  base : ℚ
  root : CTree

variable {P : Type} [Inhabited P]

/-- Distance from a query to a stored point. -/
def qdist (T : Tree P) (q : P) (p : ℕ) : ℚ :=
  T.M.d q (pt T.pts p)

/-- Point accessor of the tree (the data_point of the bindings). -/
def Tree.point (T : Tree P) (i : ℕ) : P :=
  pt T.pts i

/-- Covering radius of a scale index: base to the power si (§3). -/
def covRad (T : Tree P) (s : Int) : ℚ :=
  T.base ^ s

mutual

/-- Modelled from the spec: the per-node well-formedness of a built tree
(§3 invariants, §4.C builder postconditions): children sit one scale below
the node, child centers are distinct, a non-leaf node has a self-child
with the same center and keeps no singletons of its own, coverage sets of
the children are disjoint (partition invariant), every covered point lies
within the covering radius of the center (covering invariant), and every
point covered by a child is assigned to the nearest child center, ties
broken by the lowest point index (the default nearest-center partition
scheme). -/
def wfb (T : Tree P) : CTree → Bool
  | .mk s c ch sg =>
    (ch.all fun t => t.si == s - 1) &&
    decide ((ch.map CTree.center).Nodup) &&
    (ch.isEmpty || (ch.map CTree.center).contains c) &&
    (match ch with
     | [] => decide ((c :: sg).Nodup)
     | _ :: _ => sg.isEmpty) &&
    decide ((CTree.coverageL ch).Nodup) &&
    ((CTree.coverage (.mk s c ch sg)).all fun p =>
      decide (T.M.d (pt T.pts p) (pt T.pts c) ≤ covRad T s)) &&
    (ch.all fun t1 => (CTree.coverage t1).all fun p => ch.all fun t2 =>
      decide (keyLe (T.M.d (pt T.pts p) (pt T.pts t1.center), t1.center)
        (T.M.d (pt T.pts p) (pt T.pts t2.center), t2.center))) &&
    wfbL T ch

def wfbL (T : Tree P) : List CTree → Bool
  | [] => true
  | t :: ts => wfb T t && wfbL T ts

end

/-- Well-formed built tree: base above one, well-formed root, and the root
covering exactly the whole point store. -/
def Tree.WF (T : Tree P) : Prop :=
  1 < T.base ∧ wfb T T.root = true ∧ T.root.coverage.Perm (List.range T.pts.length)

instance (T : Tree P) : Decidable T.WF := by
  unfold Tree.WF; infer_instance

/-- Bounded candidate insertion: the k-NN search keeps the k best
(distance, point index) candidates seen so far, with distinct point
indices, sorted ascending; inserting a candidate beyond the k-th best
drops it (the bounded max-heap of §4.D). -/
def admitOne (T : Tree P) (q : P) (k : ℕ) (h : List (ℚ × ℕ)) (p : ℕ) : List (ℚ × ℕ) :=
  if p ∈ h.map Prod.snd then h
  else (List.orderedInsert keyLe (qdist T q p, p) h).take k

/-- Fold of candidate insertion over a list of point indices. -/
def admitAll (T : Tree P) (q : P) (k : ℕ) (h : List (ℚ × ℕ)) (ps : List ℕ) : List (ℚ × ℕ) :=
  ps.foldl (admitOne T q k) h

/-- Triangle-inequality pruning test of §4.D: a child is skipped when the
candidate list is full and the distance to the child's center minus the
child's covering radius is not below the current worst kept distance. -/
def pruneChk (k : ℕ) (h : List (ℚ × ℕ)) (bound : ℚ) : Bool :=
  match h.getLast? with
  | none => false
  | some e => h.length == k && decide (e.1 ≤ bound)

mutual

/-- Modelled from the spec: the k-NN descent of §4.D.  At each node admit
the center (and, when the flag is set, the singletons) into the bounded
candidate list, then descend into every child that survives the
triangle-inequality pruning test.  With the flag unset this is the
routing k-NN, which admits only node centers. -/
def knnGoN (T : Tree P) (flag : Bool) (q : P) (k : ℕ) : CTree → List (ℚ × ℕ) → List (ℚ × ℕ)
  | .mk _ c ch sg, h =>
    knnGoL T flag q k ch
      (if flag then admitAll T q k (admitOne T q k h c) sg else admitOne T q k h c)

def knnGoL (T : Tree P) (flag : Bool) (q : P) (k : ℕ) : List CTree → List (ℚ × ℕ) → List (ℚ × ℕ)
  | [], h => h
  | t :: ts, h =>
    knnGoL T flag q k ts
      (if pruneChk k h (qdist T q t.center - covRad T t.si) then h
       else knnGoN T flag q k t h)

end

/-- Modelled from the spec: Tree.knn(point, k), the standard k-NN query
returning the k best (distance, point index) pairs sorted ascending. -/
def Tree.knn (T : Tree P) (q : P) (k : ℕ) : List (ℚ × ℕ) :=
  knnGoN T true q k T.root []

/-- Modelled from the spec: Tree.routing_knn(point, k), the k-NN variant
whose candidate set excludes singletons — only node centers are
admitted. -/
def Tree.routing_knn (T : Tree P) (q : P) (k : ℕ) : List (ℚ × ℕ) :=
  knnGoN T false q k T.root []

/-- Brute-force k-nearest-neighbor scan over a list of point indices:
sort all (distance, index) pairs ascending and keep the first k. -/
def brute (T : Tree P) (q : P) (k : ℕ) (s : List ℕ) : List (ℚ × ℕ) :=
  (List.insertionSort keyLe (s.dedup.map fun p => (qdist T q p, p))).take k

/-- Selection of the routing child of §4.D: the child whose center is
nearest to the query, ties broken by the lowest center point index (the
determinism the spec's design notes fix for tests). -/
def bestChild (T : Tree P) (q : P) : List CTree → Option CTree
  | [] => none
  | t :: ts =>
    match bestChild T q ts with
    | none => some t
    | some b =>
      if keyLt (qdist T q b.center, b.center) (qdist T q t.center, t.center) then some b
      else some t

/-- Modelled from the spec: the routing descent of §4.D.  From each node,
record the distance to the center and the node itself, then descend into
the child whose center is nearest, down to a leaf. -/
def routeGo (T : Tree P) (q : P) (t : CTree) : List (ℚ × CTree) :=
  (qdist T q t.center, t) ::
    (match hb : bestChild T q t.children with
     | none => []
     | some b => routeGo T q b)
termination_by sizeOf t
decreasing_by
  have hmem : ∀ (ts : List CTree) (b : CTree), bestChild T q ts = some b → b ∈ ts := by
    intro ts
    induction ts with
    | nil => intro b hb; simp [bestChild] at hb
    | cons t' ts' ih =>
      intro b hb
      rw [bestChild] at hb
      rcases hts : bestChild T q ts' with _ | b'
      · rw [hts] at hb; simp at hb; simp [hb]
      · rw [hts] at hb
        by_cases hc : keyLt (qdist T q b'.center, b'.center) (qdist T q t'.center, t'.center)

        · simp [hc] at hb; right; exact hb ▸ ih b' hts
        · simp [hc] at hb; simp [hb]
  have h1 : sizeOf b < sizeOf t.children := List.sizeOf_lt_of_mem (hmem _ _ hb)
  have h2 : sizeOf t.children ≤ sizeOf t := by
    cases t with
    | mk s c ch sg => simp [CTree.children]; omega
  omega

/-- Modelled from the spec: Tree.path(point) — the ordered sequence of
(distance to center, address) pairs visited by the routing rule, from the
root to a leaf. -/
def Tree.path (T : Tree P) (q : P) : List (ℚ × (Int × ℕ)) :=
  (routeGo T q T.root).map fun e => (e.1, e.2.addr)

mutual

/-- Modelled from the spec: the stored parent-to-child lineage of a point
index — from each node, descend into the child whose coverage set holds
the index, with no distance computations to points outside the path. -/
def knownGo (T : Tree P) (pi : ℕ) : CTree → List (ℚ × (Int × ℕ))
  | .mk s c ch _ =>
    (T.M.d (pt T.pts pi) (pt T.pts c), (s, c)) :: knownGoL T pi ch

def knownGoL (T : Tree P) (pi : ℕ) : List CTree → List (ℚ × (Int × ℕ))
  | [] => []
  | t :: ts => if pi ∈ t.coverage then knownGo T pi t else knownGoL T pi ts

end

/-- Modelled from the spec: Tree.known_path(pi), the path of a point
already in the store, read off the stored lineage. -/
def Tree.known_path (T : Tree P) (pi : ℕ) : List (ℚ × (Int × ℕ)) :=
  knownGo T pi T.root

mutual

/-- Node lookup by address (Tree.node(addr) of the public surface). -/
def nodeAt : CTree → Int × ℕ → Option CTree
  | .mk s c ch sg, a =>
    if (s, c) = a then some (.mk s c ch sg) else nodeAtL ch a

def nodeAtL : List CTree → Int × ℕ → Option CTree
  | [], _ => none
  | t :: ts, a =>
    match nodeAt t a with
    | some n => some n
    | none => nodeAtL ts a

end

/-- Bucket of a tracked node (§4.F): either a child (by address) or the
singleton bucket, denoted by none. -/
abbrev Bucket := Option (Int × ℕ)

/-- Bucket sequence of a routing descent: every visited internal node
contributes its address with the child bucket descended into, and the
final leaf contributes its address with the singleton bucket. -/
def bucketsOf : List CTree → List ((Int × ℕ) × Bucket)
  | [] => []
  | [n] => [(n.addr, none)]
  | n :: m :: rest => (n.addr, some m.addr) :: bucketsOf (m :: rest)

/-- Modelled from the spec: the path of a stream point as the tracker
records it — the sequence of (address, chosen bucket) pairs (§4.F). -/
def bucketPath (T : Tree P) (q : P) : List ((Int × ℕ) × Bucket) :=
  bucketsOf ((routeGo T q T.root).map Prod.snd)

/-- Evidence table of a tracker: association list from (address, bucket)
to accumulated evidence mass. -/
abbrev Evd := List (((Int × ℕ) × Bucket) × ℚ)

/-- Add a mass to one (address, bucket) evidence cell. -/
def bump : Evd → ((Int × ℕ) × Bucket) → ℚ → Evd
  | [], key, dv => [(key, dv)]
  | (key', v) :: rest, key, dv =>
    if key' = key then (key', v + dv) :: rest else (key', v) :: bump rest key dv

/-- Evidence of one (address, bucket) cell; zero when never touched. -/
def evLookup : Evd → (Int × ℕ) × Bucket → ℚ
  | [], _ => 0
  | (key', v) :: rest, key => if key' = key then v else evLookup rest key

/-- Apply one recorded path to the evidence table with the given mass
(positive on push, negative on pop). -/
def applyPath (e : Evd) (p : List ((Int × ℕ) × Bucket)) (dv : ℚ) : Evd :=
  p.foldl (fun acc kb => bump acc kb dv) e

/-- Modelled from the spec: the mutable state of a Bayesian path tracker —
the ring buffer of the recorded paths (most recent first) and the
per-(address, bucket) evidence. -/
structure TrackerState where
  window : List (List ((Int × ℕ) × Bucket))
  evd : Evd

/-- The empty tracker state produced by Tree.kl_div_dirichlet. -/
def TrackerState.empty : TrackerState := ⟨[], []⟩

/-- Modelled from the spec: Tracker.push(x) (§4.F).  Compute the path of
x, record it, add observation_weight to each (address, bucket) on it; when
the window (of size wsize, zero meaning infinite) overflows, pop the
oldest path and subtract its contributions. -/
def push (T : Tree P) (ow : ℚ) (wsize : ℕ) (s : TrackerState) (x : P) : TrackerState :=
  let p := bucketPath T x
  let w := p :: s.window
  let e := applyPath s.evd p ow
  if wsize ≠ 0 ∧ wsize < w.length then
    ⟨w.take wsize, (w.drop wsize).foldl (fun acc pp => applyPath acc pp (-ow)) e⟩
  else
    ⟨w, e⟩

/-- Fold of Tracker.push over a stream of points. -/
def pushList (T : Tree P) (ow : ℚ) (wsize : ℕ) (s : TrackerState) (xs : List P) : TrackerState :=
  xs.foldl (push T ow wsize) s

/-- Window contents expected after pushing a stream: the paths of the last
wsize points, most recent first, or of all points when wsize is zero. -/
def expectedWindow (T : Tree P) (wsize : ℕ) (xs : List P) : List (List ((Int × ℕ) × Bucket)) :=
  let l := (xs.map (bucketPath T)).reverse
  if wsize = 0 then l else l.take wsize

/-- Contribution count of one (address, bucket) cell over a window: how
many recorded paths hit the cell (with multiplicity). -/
def contribCount (w : List (List ((Int × ℕ) × Bucket))) (key : (Int × ℕ) × Bucket) : ℕ :=
  (w.map fun p => p.count key).sum

/-- Modelled from the repository's callers: tracker.evidence(addr)
returns None when the tracker holds no evidence at the address, and
otherwise the pair of the per-child-bucket evidence list and the
singleton-bucket evidence. -/
def TrackerState.evidence (T : Tree P) (s : TrackerState) (a : Int × ℕ) :
    Option (List ((Int × ℕ) × ℚ) × ℚ) :=
  if s.evd.any fun kv => decide (kv.1.1 = a) then
    match nodeAt T.root a with
    | some n =>
      some (n.children.map fun c => (c.addr, evLookup s.evd (a, some c.addr)),
        evLookup s.evd (a, none))
    | none => none
  else none

/-- Modelled from the repository's callers: node.children_probs() — the
training-time bucket masses of a node, normalized: the singleton bucket
(address None) first, then one entry per child. -/
def children_probs (n : CTree) : List (Bucket × ℚ) :=
  let m0 : ℚ := n.singles.length
  let total : ℚ := m0 + (n.children.map fun c => ((c.coverage.length : ℚ))).sum
  (none, m0 / total) :: n.children.map fun c => (some c.addr, (c.coverage.length : ℚ) / total)

/-- Modelled from the spec: the symmetric-Dirichlet prior weights of a
node — prior_weight times the bucket masses (singleton bucket first,
§4.F). -/
def alphaPrior (pw : ℚ) (n : CTree) : List ℚ :=
  (pw * n.singles.length) :: n.children.map fun c => pw * c.coverage.length

/-- Posterior weights of a node under a tracker state: the prior weights
plus the accumulated evidence of each bucket. -/
def alphaPost (pw : ℚ) (s : TrackerState) (n : CTree) : List ℚ :=
  (pw * n.singles.length + evLookup s.evd (n.addr, none)) ::
    n.children.map fun c => pw * c.coverage.length + evLookup s.evd (n.addr, some c.addr)

/-- Modelled from the repository's callers:
tracker.marginal_posterior_probs(addr) — the posterior bucket
probabilities of a node, one None-address entry for the singleton bucket
and one entry per child. -/
def marginal_posterior_probs (T : Tree P) (pw : ℚ) (s : TrackerState) (a : Int × ℕ) :
    Option (List (Bucket × ℚ)) :=
  match nodeAt T.root a with
  | none => none
  | some n =>
    let al := alphaPost pw s n
    some (((none : Bucket) :: n.children.map fun c => some c.addr).zip (al.map fun v => v / al.sum))

/-- Logarithm of the Gamma function, the ln-Gamma of the spec's KL
formula (§4.F). -/
noncomputable def lgam (x : ℝ) : ℝ := Real.log (Real.Gamma x)

/-- Digamma function: the derivative of ln-Gamma. -/
noncomputable def digam (x : ℝ) : ℝ := deriv lgam x

/-- Modelled from the spec: the closed-form KL divergence between the
Dirichlet posterior (weights bs) and the Dirichlet prior (weights as) of
§4.F. -/
noncomputable def dirichletKl (as bs : List ℝ) : ℝ :=
  lgam bs.sum - lgam as.sum - ((as.zip bs).map fun x => lgam x.2 - lgam x.1).sum
    + ((as.zip bs).map fun x => (x.2 - x.1) * (digam x.2 - digam bs.sum)).sum

/-- Log-normalizer of a Dirichlet distribution with the given weights;
the KL formula is its Bregman divergence. -/
noncomputable def potential (l : List ℝ) : ℝ := (l.map lgam).sum - lgam l.sum

/-- Clamping floor for Dirichlet weights before ln-Gamma and digamma
evaluation: two to the minus twentieth power (§7). -/
noncomputable def epsClamp : ℝ := (2 : ℝ) ^ (-20 : ℤ)

/-- Clamp a weight vector at the floor before evaluation (§7). -/
noncomputable def clampL (l : List ℚ) : List ℝ := l.map fun v : ℚ => max epsClamp (v : ℝ)

/-- Modelled from the spec: the per-node KL divergence a tracker reports
for one address — the closed-form Dirichlet KL of the clamped prior and
posterior weights; an address with no node yields zero (§7). -/
noncomputable def reported_kl (T : Tree P) (pw : ℚ) (s : TrackerState) (a : Int × ℕ) : ℝ :=
  match nodeAt T.root a with
  | none => 0
  | some n => dirichletKl (clampL (alphaPrior pw n)) (clampL (alphaPost pw s n))

/-- Modelled from the repository's callers: tracker.all_kl() — the list
of (KL, address) pairs over the addresses holding evidence. -/
noncomputable def all_kl (T : Tree P) (pw : ℚ) (s : TrackerState) : List (ℝ × (Int × ℕ)) :=
  ((s.evd.map fun kv => kv.1.1).dedup).map fun a => (reported_kl T pw s a, a)

/-- Real Beta function as an integral over the open unit interval; the
vehicle for the joint log-convexity of the Dirichlet log-normalizer. -/
noncomputable def Ibeta (x y : ℝ) : ℝ :=
  ∫ t in Set.Ioo (0 : ℝ) 1, t ^ (x - 1) * (1 - t) ^ (y - 1)

/-- Two-weight Dirichlet log-normalizer, the logarithm of the Beta
function: the building block the potential telescopes into. -/
noncomputable def gBeta (x y : ℝ) : ℝ := lgam x + lgam y - lgam (x + y)

/-- Componentwise segment between the second components (at 0) and the
first components (at 1) of a list of weight pairs. -/
noncomputable def comboL (L : List (ℝ × ℝ)) (t : ℝ) : List ℝ :=
  L.map fun p => p.2 + t * (p.1 - p.2)

/-- Embedded from src/examples/ember_chronological_drift.py (normalize):
one entry of the normalized statistics — subtract the baseline mean and,
when the baseline variance is positive, divide by its square root. -/
noncomputable def normalize_entry (stat mean variance : ℝ) : ℝ :=
  let n := stat - mean
  if variance > 0 then n / Real.sqrt variance else n

/-- Embedded from src/examples/gaussian_drift.py and
src/pygoko/tests/gmm_test.py (unpack_stats): one appended entry — the
quotient by the square root of the variance is computed but never bound,
so the appended value is the raw difference in every case. -/
noncomputable def unpack_stats_entry (stat mean variance : ℝ) : ℝ :=
  let normalized := stat - mean
  if variance > 0 then
    let discarded := normalized / Real.sqrt variance
    normalized
  else normalized

/-- Normalization formula as the spec states it for callers:
(live − mean) / sqrt(var) when var is positive, else the raw
difference. -/
noncomputable def normalized_stat_spec (live mean variance : ℝ) : ℝ :=
  if variance > 0 then (live - mean) / Real.sqrt variance else live - mean

/-- Embedded from src/examples/ember_chronological_drift.py: the
normalize function mapped over the baseline keys. -/
noncomputable def normalize (stats : ℕ → ℝ) (bl : List (ℕ × ℝ × ℝ)) : List (ℕ × ℝ) :=
  bl.map fun kb => (kb.1, normalize_entry (stats kb.1) kb.2.1 kb.2.2)

/-- Embedded from src/examples/gaussian_drift.py: the unpack_stats
function mapped over the baseline keys. -/
noncomputable def unpack_stats (stats : ℕ → ℝ) (bl : List (ℕ × ℝ × ℝ)) : List (ℕ × ℝ) :=
  bl.map fun kb => (kb.1, unpack_stats_entry (stats kb.1) kb.2.1 kb.2.2)

/-- Parameter names of Tree.kl_div_dirichlet_baseline as the repository's
callers spell them. -/
inductive BaselineArg where
  | prior_weight
  | observation_weight
  | sequence_len
  | sequence_count
  | window_size
  | sample_rate
deriving DecidableEq, Repr

open BaselineArg in
/-- Modelled from the spec: the five-parameter signature the spec gives
for Tree.kl_div_dirichlet_baseline (§4.G, §6). -/
def baselineSpecParams : List BaselineArg :=
  [prior_weight, observation_weight, window_size, sequence_count, sample_rate]

open BaselineArg in
/-- Six-parameter signature matching every test call site. -/
def baselineSixParams : List BaselineArg :=
  [prior_weight, observation_weight, sequence_len, sequence_count, window_size, sample_rate]

open BaselineArg in
/-- Embedded from src/pygoko/tests/test_one_d_viz.py: the positional
arguments of its kl_div_dirichlet_baseline call. -/
def call_test_one_d_viz : List BaselineArg :=
  [prior_weight, observation_weight, sequence_len, sequence_count, window_size, sample_rate]

open BaselineArg in
/-- Embedded from src/pygoko/tests/gmm_test.py: the positional arguments
of its kl_div_dirichlet_baseline call. -/
def call_gmm_test : List BaselineArg :=
  [prior_weight, observation_weight, sequence_len, sequence_count, window_size, sample_rate]

open BaselineArg in
/-- Embedded from src/pygoko/tests/ember2018.py: the positional arguments
of its kl_div_dirichlet_baseline call. -/
def call_ember2018 : List BaselineArg :=
  [prior_weight, observation_weight, sequence_len, sequence_count, window_size, sample_rate]

open BaselineArg in
/-- Embedded from src/examples/gaussian_drift.py: the positional
arguments of its kl_div_dirichlet_baseline call (moving_sample_count is
passed as the ceiling on sequence lengths, per its comment). -/
def call_gaussian_drift : List BaselineArg :=
  [prior_weight, observation_weight, sequence_len, sequence_count, sample_rate]

open BaselineArg in
/-- Embedded from src/examples/ember_chronological_drift.py: the
positional arguments of its kl_div_dirichlet_baseline call. -/
def call_ember_drift : List BaselineArg :=
  [prior_weight, observation_weight, window_size, sequence_count, sample_rate]

/-- Validity of a k-nearest-neighbor answer over a candidate index set,
exactly what a brute-force nearest-neighbor check verifies: sorted
ascending, distinct indices with their true distances, of the full
size the candidate set allows, and no unreturned candidate closer than a
returned one. -/
def ValidKnn (T : Tree P) (q : P) (k : ℕ) (s : Finset ℕ) (res : List (ℚ × ℕ)) : Prop :=
  res.Sorted keyLe ∧ (res.map Prod.snd).Nodup ∧ res.length = min k s.card ∧
    (∀ e ∈ res, e.1 = qdist T q e.2 ∧ e.2 ∈ s) ∧
    (∀ p ∈ s, p ∉ res.map Prod.snd → ∀ e ∈ res, e.1 ≤ qdist T q p)

instance (T : Tree P) (q : P) (k : ℕ) (s : Finset ℕ) (res : List (ℚ × ℕ))
    [DecidableEq P] : Decidable (ValidKnn T q k s res) := by
  unfold ValidKnn
  have : DecidablePred (fun e : ℚ × ℕ => e.1 = qdist T q e.2 ∧ e.2 ∈ s) := by
    intro e; exact And.decidable
  exact And.decidable

/-- Candidate universe of a k-NN variant below one node: all covered
points for the standard k-NN, only the centers for the routing k-NN. -/
def cands (flag : Bool) (t : CTree) : List ℕ :=
  if flag then t.coverage else t.centers

/-- Candidate universe below a list of nodes. -/
def candsL (flag : Bool) (ts : List CTree) : List ℕ :=
  if flag then CTree.coverageL ts else CTree.centersL ts

/-- Invariant of the bounded candidate list during the k-NN descent over
the set of point indices seen so far: sorted ascending with distinct
indices and true distances, of the full size the seen set allows, and
every seen index left out no closer than any kept candidate. -/
structure HV (T : Tree P) (q : P) (k : ℕ) (h : List (ℚ × ℕ)) (S : Finset ℕ) : Prop where
  sorted : h.Sorted keyLe
  snd_nodup : (h.map Prod.snd).Nodup
  entries : ∀ e ∈ h, e.1 = qdist T q e.2 ∧ e.2 ∈ S
  hlen : h.length = min k S.card
  outer : ∀ p ∈ S, p ∉ h.map Prod.snd → ∀ e ∈ h, e.1 ≤ qdist T q p

/-- Degenerate two-point store with coincident points: per the spec's
failure-mode clause in §4.C, the builder emits a root holding the second
point as a singleton. -/
def tdup : Tree ℚ :=
  ⟨absM, [5, 5], 2, .mk 0 0 [] [1]⟩

/-- Root node of the four-point one-dimensional tree of the spec's
end-to-end scenario 1: points [[0.499], [0.48], [-0.49], [0.0]] with
scale_base = 2 and leaf_cutoff = 0, built by the §4.C algorithm (root
center point 0, top scale the least s with 2 to the s covering the
farthest point). -/
def t4root : CTree :=
  .mk 0 0
    [.mk (-1) 0
       [.mk (-2) 0
          [.mk (-3) 0
             [.mk (-4) 0
                [.mk (-5) 0
                   [.mk (-6) 0 [] [],
                    .mk (-6) 1 [] []] []] []] []] []] [],
     .mk (-1) 2
       [.mk (-2) 2 [] [],
        .mk (-2) 3 [] []] []] []

/-- The four-point one-dimensional tree of scenario 1. -/
def t4 : Tree ℚ :=
  ⟨absM, [499/1000, 48/100, -49/100, 0], 2, t4root⟩

/-! Structural lemmas about coverage, centers, and the well-formedness
checker. -/

@[simp]
theorem coverage_leaf (s : Int) (c : ℕ) (sg : List ℕ) :
    (CTree.mk s c [] sg).coverage = c :: sg := rfl

theorem coverage_node (s : Int) (c : ℕ) (t : CTree) (ts : List CTree) (sg : List ℕ) :
    (CTree.mk s c (t :: ts) sg).coverage = CTree.coverageL (t :: ts) := rfl

@[simp]
theorem coverageL_nil : CTree.coverageL [] = [] := rfl

@[simp]
theorem coverageL_cons (t : CTree) (ts : List CTree) :
    CTree.coverageL (t :: ts) = t.coverage ++ CTree.coverageL ts := rfl

@[simp]
theorem centers_mk (s : Int) (c : ℕ) (ch : List CTree) (sg : List ℕ) :
    (CTree.mk s c ch sg).centers = c :: CTree.centersL ch := rfl

@[simp]
theorem centersL_nil : CTree.centersL [] = [] := rfl

@[simp]
theorem centersL_cons (t : CTree) (ts : List CTree) :
    CTree.centersL (t :: ts) = t.centers ++ CTree.centersL ts := rfl

theorem mem_coverageL {p : ℕ} {ts : List CTree} :
    p ∈ CTree.coverageL ts ↔ ∃ t ∈ ts, p ∈ t.coverage := by
  induction ts with
  | nil => simp
  | cons t ts ih => simp [ih]

theorem mem_centersL {p : ℕ} {ts : List CTree} :
    p ∈ CTree.centersL ts ↔ ∃ t ∈ ts, p ∈ t.centers := by
  induction ts with
  | nil => simp
  | cons t ts ih => simp [ih]

theorem wfbL_forall {T : Tree P} {ts : List CTree} :
    wfbL T ts = true ↔ ∀ t ∈ ts, wfb T t = true := by
  induction ts with
  | nil => simp [wfbL]
  | cons t ts ih => simp [wfbL, Bool.and_eq_true, ih]

theorem wfb_unpack {T : Tree P} {s : Int} {c : ℕ} {ch : List CTree} {sg : List ℕ}
    (h : wfb T (.mk s c ch sg) = true) :
    (∀ t ∈ ch, t.si = s - 1) ∧
    (ch.map CTree.center).Nodup ∧
    (ch ≠ [] → c ∈ ch.map CTree.center) ∧
    (ch = [] → (c :: sg).Nodup) ∧
    (ch ≠ [] → sg = []) ∧
    (CTree.coverageL ch).Nodup ∧
    (∀ p ∈ (CTree.mk s c ch sg).coverage,
      T.M.d (pt T.pts p) (pt T.pts c) ≤ covRad T s) ∧
    (∀ t1 ∈ ch, ∀ p ∈ t1.coverage, ∀ t2 ∈ ch,
      keyLe (T.M.d (pt T.pts p) (pt T.pts t1.center), t1.center)
        (T.M.d (pt T.pts p) (pt T.pts t2.center), t2.center)) ∧
    (∀ t ∈ ch, wfb T t = true) := by
  rw [wfb.eq_def] at h
  simp only [Bool.and_eq_true, List.all_eq_true, beq_iff_eq, decide_eq_true_eq,
    Bool.or_eq_true, List.isEmpty_iff, wfbL_forall] at h
  obtain ⟨⟨⟨⟨⟨⟨⟨h1, h2⟩, h3⟩, h4⟩, h5⟩, h6⟩, h7⟩, h8⟩
    := h
  refine ⟨h1, h2, ?_, ?_, ?_, h5, h6, fun t1 ht1 p hp t2 ht2 => h7 t1 ht1 p hp t2 ht2, h8⟩
  · intro hne
    rcases h3 with h3 | h3
    · exact absurd h3 hne
    · simpa using h3
  · intro he
    subst he
    simpa using h4
  · intro hne
    cases ch with
    | nil => exact absurd rfl hne
    | cons t ts => simpa using h4

/-! Lemmas about the bounded candidate list. -/

theorem keyLe_fst_le {a b : ℚ × ℕ} (h : keyLe a b) : a.1 ≤ b.1 := by
  rcases h with h | ⟨h, _⟩
  · exact h.le
  · exact h.le

theorem keyLe_refl (a : ℚ × ℕ) : keyLe a a := Or.inr ⟨rfl, le_rfl⟩

theorem sorted_take_drop {l : List (ℚ × ℕ)} {k : ℕ} (hs : l.Sorted keyLe)
    {a b : ℚ × ℕ} (ha : a ∈ l.take k) (hb : b ∈ l.drop k) : keyLe a b := by
  have h := (List.pairwise_append.mp (by rw [List.take_append_drop] at *; exact hs :
    List.Pairwise keyLe (l.take k ++ l.drop k)))
  exact h.2.2 a ha b hb

theorem hv_admitOne {T : Tree P} {q : P} {k : ℕ} {h : List (ℚ × ℕ)} {S : Finset ℕ}
    (hv : HV T q k h S) (p : ℕ) :
    HV T q k (admitOne T q k h p) (insert p S) := by
  unfold admitOne
  by_cases hp : p ∈ h.map Prod.snd
  · rw [if_pos hp]
    have hpS : p ∈ S := by
      obtain ⟨e, he, hesnd⟩ := List.mem_map.mp hp
      exact hesnd ▸ (hv.entries e he).2
    rw [Finset.insert_eq_self.mpr hpS]
    exact hv
  · rw [if_neg hp]
    set e0 := ((qdist T q p, p) : ℚ × ℕ) with he0
    set l := List.orderedInsert keyLe e0 h with hl
    have hperm : List.Perm l (e0 :: h) := List.perm_orderedInsert _ _ _
    have hsort : l.Sorted keyLe := List.Sorted.orderedInsert e0 h hv.sorted
    have hsnd : (l.map Prod.snd).Nodup := by
      refine ((hperm.map Prod.snd).nodup_iff).mpr ?_
      simp only [List.map_cons]
      exact List.nodup_cons.mpr ⟨hp, hv.snd_nodup⟩
    have hlenl : l.length = h.length + 1 := List.orderedInsert_length keyLe h e0
    have hml : ∀ e, e ∈ l ↔ e = e0 ∨ e ∈ h := fun e => by
      rw [hperm.mem_iff]; simp
    have htd : l.take k ++ l.drop k = l := List.take_append_drop _ _
    have hsplit : ∀ a ∈ l.take k, ∀ b ∈ l.drop k, keyLe a b := by
      intro a ha b hb
      exact sorted_take_drop hsort ha hb
    have hdisj : ∀ e, e ∈ l.take k → e ∈ l.drop k → False := by
      intro e h1 h2
      have : ¬ (l.map Prod.snd).Nodup := by
        rw [← htd, List.map_append]
        intro hn
        exact (List.disjoint_of_nodup_append hn) (List.mem_map_of_mem _ h1)
          (List.mem_map_of_mem _ h2)
      exact this hsnd
    -- fullness of the old list when a seen index is missing from it
    have hfull : ∀ p' ∈ S, p' ∉ h.map Prod.snd → h.length = k := by
      intro p' hp'S hp'h
      by_contra hne
      have hlt : h.length < k := lt_of_le_of_ne (hv.hlen ▸ min_le_left _ _) hne
      have hcard : h.length = S.card := by
        have hh := hv.hlen
        rcases Nat.le_total k S.card with hk | hk
        · rw [min_eq_left hk] at hh; omega
        · rwa [min_eq_right hk] at hh
      have hsub : (h.map Prod.snd).toFinset ⊆ S := by
        intro x hx
        obtain ⟨e, he, hesnd⟩ := List.mem_map.mp (List.mem_toFinset.mp hx)
        exact hesnd ▸ (hv.entries e he).2
      have hcard2 : S.card ≤ (h.map Prod.snd).toFinset.card := by
        rw [List.toFinset_card_of_nodup hv.snd_nodup, List.length_map]
        omega
      have heq : (h.map Prod.snd).toFinset = S :=
        Finset.eq_of_subset_of_card_le hsub hcard2
      exact hp'h (List.mem_toFinset.mp (heq ▸ hp'S))
    refine ⟨?_, ?_, ?_, ?_, ?_⟩
    · exact hsort.sublist (List.take_sublist _ _)
    · exact hsnd.sublist ((List.take_sublist _ _).map Prod.snd)
    · intro e he
      have hel : e ∈ l := (List.take_sublist _ _).subset he
      rcases (hml e).mp hel with rfl | heh
      · exact ⟨rfl, Finset.mem_insert_self _ _⟩
      · obtain ⟨h1, h2⟩ := hv.entries e heh
        exact ⟨h1, Finset.mem_insert_of_mem h2⟩
    · rw [List.length_take, hlenl]
      by_cases hpS : p ∈ S
      · rw [Finset.insert_eq_self.mpr hpS]
        have hfk := hfull p hpS hp
        have hh := hv.hlen
        omega
      · rw [Finset.card_insert_of_not_mem hpS]
        have hh := hv.hlen
        omega
    · intro p' hp'mem hp'nin e he
      have hel : e ∈ l := (List.take_sublist _ _).subset he
      rcases Finset.mem_insert.mp hp'mem with rfl | hp'S
      · have he0t : e0 ∉ l.take k := fun hc => hp'nin (List.mem_map_of_mem _ hc)
        have he0l : e0 ∈ l := (hml e0).mpr (Or.inl rfl)
        have he0d : e0 ∈ l.drop k := by
          rw [← htd] at he0l
          rcases List.mem_append.mp he0l with hc | hc
          · exact absurd hc he0t
          · exact hc
        exact keyLe_fst_le (hsplit e he e0 he0d)
      · by_cases hp'h : p' ∈ h.map Prod.snd
        · obtain ⟨t', ht'h, ht'snd⟩ := List.mem_map.mp hp'h
          have ht'l : t' ∈ l := (hml t').mpr (Or.inr ht'h)
          have ht'nt : t' ∉ l.take k := fun hc =>
            hp'nin (ht'snd ▸ List.mem_map_of_mem _ hc)
          have ht'd : t' ∈ l.drop k := by
            rw [← htd] at ht'l
            rcases List.mem_append.mp ht'l with hc | hc
            · exact absurd hc ht'nt
            · exact hc
          have hkey : keyLe e t' := hsplit e he t' ht'd
          have ht1 : t'.1 = qdist T q p' := ht'snd ▸ (hv.entries t' ht'h).1
          exact ht1 ▸ keyLe_fst_le hkey
        · have hout := hv.outer p' hp'S hp'h
          rcases (hml e).mp hel with rfl | heh
          · have hfk := hfull p' hp'S hp'h
            have hdne : l.drop k ≠ [] := by
              have hdl : (l.drop k).length = 1 := by
                rw [List.length_drop, hlenl, hfk]; omega
              intro hc; rw [hc] at hdl; simp at hdl
            obtain ⟨w, hw⟩ := List.exists_mem_of_ne_nil _ hdne
            have hwl : w ∈ l := by
              rw [← htd]; exact List.mem_append_right _ hw
            rcases (hml w).mp hwl with rfl | hwh
            · exact absurd hw fun hc => hdisj e0 he hc
            · have h1 : keyLe e0 w := hsplit e0 he w hw
              have h2 : w.1 ≤ qdist T q p' := hout w hwh
              exact le_trans (keyLe_fst_le h1) h2
          · exact hout e heh

theorem center_mem_centers (t : CTree) : t.center ∈ t.centers := by
  cases t
  simp [CTree.center, centers_mk]

theorem mem_of_getLast_opt {α : Type} : ∀ {l : List α} {w : α}, l.getLast? = some w → w ∈ l := by
  intro l
  induction l with
  | nil => intro w h; simp at h
  | cons a l ih =>
    intro w h
    cases l with
    | nil => simp_all
    | cons b l' =>
      rw [List.getLast?_cons_cons] at h
      exact List.mem_cons_of_mem _ (ih h)

theorem sorted_le_getLast {l : List (ℚ × ℕ)} (hs : l.Sorted keyLe) {e w : ℚ × ℕ}
    (he : e ∈ l) (hw : l.getLast? = some w) : keyLe e w := by
  induction l with
  | nil => cases he
  | cons a l ih =>
    cases l with
    | nil =>
      simp only [List.mem_singleton] at he
      simp only [List.getLast?_singleton, Option.some.injEq] at hw
      subst he; subst hw
      exact keyLe_refl e
    | cons b l' =>
      rw [List.getLast?_cons_cons] at hw
      rcases List.mem_cons.mp he with rfl | he'
      · exact List.rel_of_sorted_cons hs w (mem_of_getLast_opt hw)
      · exact ih hs.of_cons he' hw

theorem hv_admitAll {T : Tree P} {q : P} {k : ℕ} {h : List (ℚ × ℕ)} {S : Finset ℕ}
    (hv : HV T q k h S) (ps : List ℕ) :
    HV T q k (admitAll T q k h ps) (S ∪ ps.toFinset) := by
  induction ps generalizing h S with
  | nil =>
    simpa [admitAll] using hv
  | cons p ps ih =>
    have h1 : admitAll T q k h (p :: ps) = admitAll T q k (admitOne T q k h p) ps := rfl
    rw [h1]
    have h2 := ih (hv_admitOne hv p)
    have h3 : insert p S ∪ ps.toFinset = S ∪ (p :: ps).toFinset := by
      ext x; simp [or_assoc]
    exact h3 ▸ h2

theorem hv_prune {T : Tree P} {q : P} {k : ℕ} {h : List (ℚ × ℕ)} {S : Finset ℕ}
    (hv : HV T q k h S) {C : Finset ℕ} {bound : ℚ}
    (hp : pruneChk k h bound = true) (hb : ∀ p ∈ C, bound ≤ qdist T q p) :
    HV T q k h (S ∪ C) := by
  unfold pruneChk at hp
  rcases hgl : h.getLast? with _ | w
  · rw [hgl] at hp; simp at hp
  · rw [hgl] at hp
    simp only [Bool.and_eq_true, beq_iff_eq, decide_eq_true_eq] at hp
    obtain ⟨hlen, hwb⟩ := hp
    refine ⟨hv.sorted, hv.snd_nodup, ?_, ?_, ?_⟩
    · intro e he
      obtain ⟨h1, h2⟩ := hv.entries e he
      exact ⟨h1, Finset.mem_union_left _ h2⟩
    · have hcard : S.card ≤ (S ∪ C).card := Finset.card_le_card Finset.subset_union_left
      have hh := hv.hlen
      omega
    · intro p hpm hpn e he
      rcases Finset.mem_union.mp hpm with hpS | hpC
      · exact hv.outer p hpS hpn e he
      · have h1 : keyLe e w := sorted_le_getLast hv.sorted he hgl
        exact le_trans (keyLe_fst_le h1) (le_trans hwb (hb p hpC))

theorem dist_lower {T : Tree P} {q : P} {t : CTree} (hw : wfb T t = true)
    {p : ℕ} (hp : p ∈ t.coverage) :
    qdist T q t.center - covRad T t.si ≤ qdist T q p := by
  cases t with
  | mk s c ch sg =>
    have hcov := (wfb_unpack hw).2.2.2.2.2.2.1 p hp
    have htri := T.M.d_triangle q (pt T.pts p) (pt T.pts c)
    simp only [CTree.center, CTree.si]
    unfold qdist
    linarith

mutual

theorem centersSubCov (T : Tree P) :
    ∀ (t : CTree), wfb T t = true → ∀ p ∈ t.centers, p ∈ t.coverage
  | .mk s c ch sg, hw, p, hp => by
    have hu := wfb_unpack hw
    rcases hch : ch with _ | ⟨t, ts⟩
    · subst hch
      simp only [centers_mk, centersL_nil] at hp
      simp only [coverage_leaf]
      simp at hp
      simp [hp]
    · subst hch
      rw [centers_mk] at hp
      rw [coverage_node]
      rcases List.mem_cons.mp hp with rfl | hpl
      · obtain ⟨b, hb, hbc⟩ := List.mem_map.mp (hu.2.2.1 (by simp))
        have hcm : p ∈ CTree.centersL (t :: ts) :=
          mem_centersL.mpr ⟨b, hb, hbc ▸ center_mem_centers b⟩
        exact centersSubCovL T (t :: ts) hu.2.2.2.2.2.2.2.2 p hcm
      · exact centersSubCovL T (t :: ts) hu.2.2.2.2.2.2.2.2 p hpl

theorem centersSubCovL (T : Tree P) :
    ∀ (ts : List CTree), (∀ t ∈ ts, wfb T t = true) →
      ∀ p ∈ CTree.centersL ts, p ∈ CTree.coverageL ts
  | [], _, p, hp => by simp at hp
  | t :: ts, hws, p, hp => by
    rw [centersL_cons] at hp
    rw [coverageL_cons]
    rcases List.mem_append.mp hp with hp1 | hp2
    · exact List.mem_append_left _ (centersSubCov T t (hws t (by simp)) p hp1)
    · exact List.mem_append_right _
        (centersSubCovL T ts (fun u hu => hws u (List.mem_cons_of_mem _ hu)) p hp2)

end

theorem cands_sub_cov {T : Tree P} {t : CTree} (hw : wfb T t = true) (flag : Bool) :
    ∀ p ∈ cands flag t, p ∈ t.coverage := by
  intro p hp
  cases flag with
  | true => exact hp
  | false => exact centersSubCov T t hw p hp

theorem candsL_cons (flag : Bool) (t : CTree) (ts : List CTree) :
    candsL flag (t :: ts) = cands flag t ++ candsL flag ts := by
  cases flag <;> rfl

theorem candsL_nil (flag : Bool) : candsL flag [] = [] := by
  cases flag <;> rfl

theorem center_mem_coverage {T : Tree P} {t : CTree} (hw : wfb T t = true) :
    t.center ∈ t.coverage :=
  centersSubCov T t hw t.center (center_mem_centers t)

mutual

theorem hv_goN (T : Tree P) (q : P) (k : ℕ) (flag : Bool) :
    ∀ (t : CTree), wfb T t = true → ∀ (h : List (ℚ × ℕ)) (S : Finset ℕ), HV T q k h S →
      HV T q k (knnGoN T flag q k t h) (S ∪ (cands flag t).toFinset)
  | .mk s c ch sg, hw, h, S, hv => by
    have hu := wfb_unpack hw
    rw [knnGoN]
    have hv1 : HV T q k
        (if flag then admitAll T q k (admitOne T q k h c) sg else admitOne T q k h c)
        (if flag then insert c S ∪ sg.toFinset else insert c S) := by
      cases flag
      · simpa using hv_admitOne hv c
      · simpa using hv_admitAll (hv_admitOne hv c) sg
    have h2 := hv_goL T q k flag ch hu.2.2.2.2.2.2.2.2 _ _ hv1
    have h3 : (if flag then insert c S ∪ sg.toFinset else insert c S) ∪
        (candsL flag ch).toFinset = S ∪ (cands flag (CTree.mk s c ch sg)).toFinset := by
      rcases hch : ch with _ | ⟨t, ts⟩
      · subst hch
        cases flag
        · ext x; simp [cands, candsL, centers_mk] <;> tauto
        · ext x; simp [cands, candsL, coverage_leaf] <;> tauto
      · subst hch
        cases flag
        · ext x; simp [cands, candsL, centers_mk] <;> tauto
        · have hsg : sg = [] := hu.2.2.2.2.1 (by simp)
          have hc : c ∈ CTree.coverageL (t :: ts) := by
            obtain ⟨b, hb, hbc⟩ := List.mem_map.mp (hu.2.2.1 (by simp))
            exact mem_coverageL.mpr
              ⟨b, hb, hbc ▸ center_mem_coverage (hu.2.2.2.2.2.2.2.2 b hb)⟩
          subst hsg
          ext x
          by_cases hxc : x = c
          · subst hxc
            simp only [coverageL_cons] at hc
            simp [cands, candsL, coverage_node]
            rcases List.mem_append.mp hc with hcc | hcc
            · exact Or.inr (Or.inl hcc)
            · exact Or.inr (Or.inr hcc)
          · simp [cands, candsL, coverage_node, hxc]
    rw [h3] at h2
    exact h2

theorem hv_goL (T : Tree P) (q : P) (k : ℕ) (flag : Bool) :
    ∀ (ts : List CTree), (∀ t ∈ ts, wfb T t = true) →
      ∀ (h : List (ℚ × ℕ)) (S : Finset ℕ), HV T q k h S →
        HV T q k (knnGoL T flag q k ts h) (S ∪ (candsL flag ts).toFinset)
  | [], _, h, S, hv => by
    rw [knnGoL]
    simpa [candsL_nil] using hv
  | t :: ts, hws, h, S, hv => by
    rw [knnGoL]
    have hwt : wfb T t = true := hws t (by simp)
    have hwts : ∀ u ∈ ts, wfb T u = true := fun u hu => hws u (List.mem_cons_of_mem _ hu)
    by_cases hpr : pruneChk k h (qdist T q t.center - covRad T t.si) = true
    · rw [if_pos hpr]
      have hb : ∀ p ∈ (cands flag t).toFinset,
          qdist T q t.center - covRad T t.si ≤ qdist T q p := by
        intro p hp
        exact dist_lower hwt (cands_sub_cov hwt flag p (List.mem_toFinset.mp hp))
      have hv' := hv_prune hv hpr hb
      have h2 := hv_goL T q k flag ts hwts h _ hv'
      have h3 : (S ∪ (cands flag t).toFinset) ∪ (candsL flag ts).toFinset
          = S ∪ (candsL flag (t :: ts)).toFinset := by
        rw [candsL_cons]; ext x; simp [or_assoc]
      rw [h3] at h2
      exact h2
    · rw [if_neg hpr]
      have h1 := hv_goN T q k flag t hwt h S hv
      have h2 := hv_goL T q k flag ts hwts _ _ h1
      have h3 : (S ∪ (cands flag t).toFinset) ∪ (candsL flag ts).toFinset
          = S ∪ (candsL flag (t :: ts)).toFinset := by
        rw [candsL_cons]; ext x; simp [or_assoc]
      rw [h3] at h2
      exact h2

end

/-! From the descent invariant to agreement with the brute-force scan. -/

theorem valid_dists {T : Tree P} {q : P} {k : ℕ} {U : List ℕ} {res : List (ℚ × ℕ)}
    (hv : ValidKnn T q k U.toFinset res) :
    res.map Prod.fst = (List.insertionSort (· ≤ ·) (U.dedup.map (qdist T q))).take k := by
  obtain ⟨hsort, hnodup, hlen, hent, hout⟩ := hv
  set sel := res.map Prod.snd with hsel
  set selP : ℕ → Bool := fun p => decide (p ∈ sel) with hselP
  set fl := U.dedup.filter selP with hfl
  set rest := U.dedup.filter (fun p => !selP p) with hrest
  have hpartition : List.Perm (fl ++ rest) U.dedup := List.filter_append_perm selP U.dedup
  have hselsub : ∀ p ∈ sel, p ∈ U.dedup := by
    intro p hp
    obtain ⟨e, he, rfl⟩ := List.mem_map.mp hp
    exact List.mem_dedup.mpr (List.mem_toFinset.mp (hent e he).2)
  have hflperm : List.Perm fl sel := by
    apply List.perm_of_nodup_nodup_toFinset_eq ((List.nodup_dedup U).filter _) hnodup
    ext x
    simp only [List.mem_toFinset, hfl, List.mem_filter, List.mem_dedup, hselP,
      decide_eq_true_eq]
    exact ⟨And.right, fun hx => ⟨List.mem_dedup.mp (hselsub x hx), hx⟩⟩
  have hmapfst : res.map Prod.fst = sel.map (qdist T q) := by
    rw [hsel, List.map_map]
    exact List.map_congr_left fun e he => (hent e he).1
  have hfstsorted : (res.map Prod.fst).Sorted (· ≤ ·) :=
    List.Pairwise.map Prod.fst (fun a b hab => keyLe_fst_le hab) hsort
  set rsort := List.insertionSort (· ≤ ·) (rest.map (qdist T q)) with hrsort
  have hcross : ∀ a ∈ res.map Prod.fst, ∀ b ∈ rsort, a ≤ b := by
    intro a ha b hb
    obtain ⟨e, he, rfl⟩ := List.mem_map.mp ha
    have hbperm : b ∈ rest.map (qdist T q) :=
      (List.perm_insertionSort _ _).subset hb
    obtain ⟨p, hp, rfl⟩ := List.mem_map.mp hbperm
    have hpU : p ∈ U.toFinset :=
      List.mem_toFinset.mpr (List.mem_dedup.mp (List.mem_filter.mp hp).1)
    have hpns : p ∉ sel := by
      have h2 := (List.mem_filter.mp hp).2
      simpa [hselP] using h2
    exact hout p hpU hpns e he
  have hLsorted : (res.map Prod.fst ++ rsort).Sorted (· ≤ ·) :=
    List.pairwise_append.mpr ⟨hfstsorted, List.sorted_insertionSort _ _, hcross⟩
  have hLperm : List.Perm (res.map Prod.fst ++ rsort) (U.dedup.map (qdist T q)) := by
    have h1 : List.Perm (res.map Prod.fst ++ rsort)
        (sel.map (qdist T q) ++ rest.map (qdist T q)) := by
      rw [hmapfst]
      exact List.Perm.append (List.Perm.refl _) (List.perm_insertionSort _ _)
    have h2 : List.Perm (sel.map (qdist T q) ++ rest.map (qdist T q))
        ((fl ++ rest).map (qdist T q)) := by
      rw [List.map_append]
      exact List.Perm.append ((hflperm.map _).symm) (List.Perm.refl _)
    exact (h1.trans h2).trans (hpartition.map _)
  have hLeq : res.map Prod.fst ++ rsort
      = List.insertionSort (· ≤ ·) (U.dedup.map (qdist T q)) :=
    List.eq_of_perm_of_sorted (hLperm.trans (List.perm_insertionSort _ _).symm)
      hLsorted (List.sorted_insertionSort _ _)
  rw [← hLeq]
  by_cases hk : k ≤ U.toFinset.card
  · have hl2 : (res.map Prod.fst).length = k := by
      rw [List.length_map, hlen]; omega
    exact (List.take_left' hl2).symm
  · have hl2 : (res.map Prod.fst).length = U.toFinset.card := by
      rw [List.length_map, hlen]; omega
    have hcard : U.dedup.length = U.toFinset.card := (List.card_toFinset U).symm
    have hrestnil : rest = [] := by
      have h1 : fl.length + rest.length = U.dedup.length := by
        have h := hpartition.length_eq
        simpa using h
      have h2 : fl.length = res.length := by
        rw [hflperm.length_eq, hsel, List.length_map]
      have h3 : res.length = U.toFinset.card := by rw [hlen]; omega
      have h4 : rest.length = 0 := by omega
      exact List.length_eq_zero.mp h4
    have hrsnil : rsort = [] := by rw [hrsort, hrestnil]; rfl
    rw [hrsnil, List.append_nil]
    exact (List.take_of_length_le (by rw [hl2]; omega)).symm

theorem brute_dists (T : Tree P) (q : P) (k : ℕ) (U : List ℕ) :
    (brute T q k U).map Prod.fst
      = (List.insertionSort (· ≤ ·) (U.dedup.map (qdist T q))).take k := by
  unfold brute
  rw [List.map_take]
  congr 1
  haveI : IsAntisymm ℚ (· ≤ ·) := ⟨fun a b h1 h2 => le_antisymm h1 h2⟩
  refine List.eq_of_perm_of_sorted (r := (· ≤ ·)) ?_ ?_ ?_
  · have h1 : List.Perm ((List.insertionSort keyLe
        (U.dedup.map fun p => (qdist T q p, p))).map Prod.fst)
        ((U.dedup.map fun p => (qdist T q p, p)).map Prod.fst) :=
      (List.perm_insertionSort _ _).map _
    have h2 : (U.dedup.map fun p => (qdist T q p, p)).map Prod.fst
        = U.dedup.map (qdist T q) := by
      rw [List.map_map]; rfl
    exact (h1.trans (h2 ▸ List.Perm.refl _)).trans
      (List.perm_insertionSort (· ≤ ·) _).symm
  · exact List.Pairwise.map Prod.fst (fun a b hab => keyLe_fst_le hab)
      (List.sorted_insertionSort _ _)
  · exact List.sorted_insertionSort _ _

@[simp]
theorem singlesAll_mk (s : Int) (c : ℕ) (ch : List CTree) (sg : List ℕ) :
    (CTree.mk s c ch sg).singlesAll = sg ++ CTree.singlesAllL ch := rfl

@[simp]
theorem singlesAllL_nil : CTree.singlesAllL [] = [] := rfl

@[simp]
theorem singlesAllL_cons (t : CTree) (ts : List CTree) :
    CTree.singlesAllL (t :: ts) = t.singlesAll ++ CTree.singlesAllL ts := rfl

theorem hv_empty (T : Tree P) (q : P) (k : ℕ) : HV T q k [] ∅ := by
  refine ⟨List.sorted_nil, List.nodup_nil, ?_, by simp, ?_⟩
  · intro e he; exact absurd he (List.not_mem_nil e)
  · intro p hp; exact absurd hp (Finset.not_mem_empty p)

theorem knn_hv {T : Tree P} (hWF : T.WF) (q : P) (k : ℕ) :
    HV T q k (T.knn q k) (List.range T.pts.length).toFinset := by
  obtain ⟨hb, hw, hperm⟩ := hWF
  have h1 := hv_goN T q k true T.root hw [] ∅ (hv_empty T q k)
  have hset : (∅ : Finset ℕ) ∪ (cands true T.root).toFinset
      = (List.range T.pts.length).toFinset := by
    rw [Finset.empty_union]
    ext x
    simp only [List.mem_toFinset, cands, if_true]
    exact hperm.mem_iff
  rw [hset] at h1
  exact h1

theorem routing_hv {T : Tree P} (hWF : T.WF) (q : P) (k : ℕ) :
    HV T q k (T.routing_knn q k) T.root.centers.toFinset := by
  obtain ⟨hb, hw, hperm⟩ := hWF
  have h1 := hv_goN T q k false T.root hw [] ∅ (hv_empty T q k)
  have hset : (∅ : Finset ℕ) ∪ (cands false T.root).toFinset
      = T.root.centers.toFinset := by
    rw [Finset.empty_union]
    rfl
  rw [hset] at h1
  exact h1

theorem hv_to_valid {T : Tree P} {q : P} {k : ℕ} {h : List (ℚ × ℕ)} {S : Finset ℕ}
    (hv : HV T q k h S) : ValidKnn T q k S h :=
  ⟨hv.sorted, hv.snd_nodup, hv.hlen, hv.entries, hv.outer⟩

mutual

theorem covEqCS (T : Tree P) :
    ∀ (t : CTree), wfb T t = true →
      ∀ p, p ∈ t.coverage ↔ (p ∈ t.centers ∨ p ∈ t.singlesAll)
  | .mk s c ch sg, hw, p => by
    have hu := wfb_unpack hw
    rcases hch : ch with _ | ⟨t, ts⟩
    · subst hch
      simp [coverage_leaf, centers_mk, centersL_nil, singlesAll_mk, singlesAllL_nil]
    · subst hch
      have hsg : sg = [] := hu.2.2.2.2.1 (by simp)
      subst hsg
      have hL := covEqCSL T (t :: ts) hu.2.2.2.2.2.2.2.2 p
      have hc : c ∈ CTree.coverageL (t :: ts) := by
        obtain ⟨b, hb, hbc⟩ := List.mem_map.mp (hu.2.2.1 (by simp))
        exact mem_coverageL.mpr
          ⟨b, hb, hbc ▸ center_mem_coverage (hu.2.2.2.2.2.2.2.2 b hb)⟩
      rw [coverage_node]
      simp only [centers_mk, singlesAll_mk, List.nil_append, List.mem_cons]
      constructor
      · intro hp
        rcases hL.mp hp with h1 | h1
        · exact Or.inl (Or.inr h1)
        · exact Or.inr h1
      · rintro ((rfl | h1) | h1)
        · exact hc
        · exact hL.mpr (Or.inl h1)
        · exact hL.mpr (Or.inr h1)

theorem covEqCSL (T : Tree P) :
    ∀ (ts : List CTree), (∀ t ∈ ts, wfb T t = true) →
      ∀ p, p ∈ CTree.coverageL ts ↔
        (p ∈ CTree.centersL ts ∨ p ∈ CTree.singlesAllL ts)
  | [], _, p => by simp
  | t :: ts, hws, p => by
    have h1 := covEqCS T t (hws t (by simp)) p
    have h2 := covEqCSL T ts (fun u hu => hws u (List.mem_cons_of_mem _ hu)) p
    simp only [coverageL_cons, centersL_cons, singlesAllL_cons, List.mem_append]
    tauto

end

set_option maxHeartbeats 3200000 in
/-- Evaluation of the well-formedness checker on the four-point tree. -/
theorem t4_wfb : wfb t4 t4.root = true := by
  norm_num [wfb, wfbL, t4, t4root, covRad, qdist, pt, absM, keyLe,
    CTree.coverage, CTree.coverageL, CTree.si, CTree.center, CTree.singles,
    abs_of_nonneg, abs_of_nonpos]

/-- The four-point tree is a well-formed built tree. -/
theorem t4_WF : t4.WF :=
  ⟨by norm_num [t4], t4_wfb, by decide⟩

/-- Evaluation of knn with k = 1 on the four-point tree, matching the
spec's literal scenario. -/
theorem t4_knn1 : t4.knn (499/1000 : ℚ) 1 = [(0, 0)] := by
  norm_num [Tree.knn, knnGoN, knnGoL, admitAll, admitOne, pruneChk, qdist, pt,
    covRad, t4, t4root, absM, keyLe, List.orderedInsert, CTree.si, CTree.center,
    abs_of_nonneg, abs_of_nonpos]

/-- Evaluation of knn with k = 2 on the four-point tree, matching the
spec's literal scenario. -/
theorem t4_knn2 : t4.knn (499/1000 : ℚ) 2 = [(0, 0), (19/1000, 1)] := by
  norm_num [Tree.knn, knnGoN, knnGoL, admitAll, admitOne, pruneChk, qdist, pt,
    covRad, t4, t4root, absM, keyLe, List.orderedInsert, CTree.si, CTree.center,
    abs_of_nonneg, abs_of_nonpos]

/-- C1: on every well-formed built tree (in particular on every point set
of size at most 1000), knn(q, k) agrees with a brute-force
nearest-neighbor check: the answer is sorted ascending, carries true
distances of distinct indices, is as long as the point set allows, no
unreturned point is closer than a returned one, and its distance list is
exactly the brute-force scan's; on the literal four-point tree of the
spec, knn(0.499, 1) = [(0.0, 0)] and the second result of knn(0.499, 2)
is (0.019, 1), exactly, hence within tolerance 1e-6. -/
theorem knn_exact_small {T : Tree P} (hWF : T.WF) (hsmall : T.pts.length ≤ 1000)
    (q : P) (k : ℕ) :
    (ValidKnn T q k (List.range T.pts.length).toFinset (T.knn q k) ∧
      (T.knn q k).map Prod.fst = (brute T q k (List.range T.pts.length)).map Prod.fst) ∧
    t4.knn (499/1000 : ℚ) 1 = [(0, 0)] ∧
    (t4.knn (499/1000 : ℚ) 2).drop 1 = [(19/1000, 1)] := by
  refine ⟨⟨hv_to_valid (knn_hv hWF q k), ?_⟩, t4_knn1, by rw [t4_knn2]; rfl⟩
  exact (valid_dists (hv_to_valid (knn_hv hWF q k))).trans
    (brute_dists T q k (List.range T.pts.length)).symm

/-- Witness for C1 at the four-point tree of the spec with k = 2. -/
theorem knn_exact_small_witness :
    t4.WF ∧ t4.pts.length ≤ 1000 ∧
      (ValidKnn t4 (499/1000 : ℚ) 2 (List.range t4.pts.length).toFinset
          (t4.knn (499/1000 : ℚ) 2) ∧
        (t4.knn (499/1000 : ℚ) 2).map Prod.fst
          = (brute t4 (499/1000 : ℚ) 2 (List.range t4.pts.length)).map Prod.fst) ∧
      t4.knn (499/1000 : ℚ) 1 = [(0, 0)] :=
  ⟨t4_WF, by decide,
    (knn_exact_small (T := t4) t4_WF (by decide) (499/1000 : ℚ) 2).1,
    ((knn_exact_small (T := t4) t4_WF (by decide) (499/1000 : ℚ) 2).2).1⟩

/-- Evaluation of the well-formedness checker on the degenerate
coincident-point tree. -/
theorem tdup_wfb : wfb tdup tdup.root = true := by
  norm_num [wfb, wfbL, tdup, covRad, qdist, pt, absM, keyLe,
    CTree.coverage, CTree.coverageL, CTree.si, CTree.center, CTree.singles,
    abs_of_nonneg, abs_of_nonpos]

/-- The coincident-point tree is a well-formed built tree. -/
theorem tdup_WF : tdup.WF :=
  ⟨by norm_num [tdup], tdup_wfb, by decide⟩

/-- Evaluation of knn on the coincident-point tree: querying with the
second point returns the first point's index. -/
theorem tdup_knn : tdup.knn (tdup.point 1) 1 = [(0, 0)] := by
  norm_num [Tree.knn, Tree.point, knnGoN, knnGoL, admitAll, admitOne, pruneChk,
    qdist, pt, covRad, tdup, absM, keyLe, List.orderedInsert, CTree.si,
    CTree.center, abs_of_nonneg, abs_of_nonpos]

/-- C3 counterexample: on the well-formed two-point tree whose points
coincide (the builder's degenerate case from §4.C), knn(point(1), 1)
returns index 0, not (0.0, 1) as the claim requires for every point
index. -/
theorem knn_contains_self_cex :
    tdup.WF ∧ 1 < tdup.pts.length ∧
      tdup.knn (tdup.point 1) 1 = [(0, 0)] ∧
      tdup.knn (tdup.point 1) 1 ≠ [(0, 1)] := by
  refine ⟨tdup_WF, by decide, tdup_knn, ?_⟩
  rw [tdup_knn]
  simp [Prod.ext_iff]

/-- C3 (amended): for every point index pi of a well-formed built tree,
knn(point(pi), 1) returns a single pair with distance 0.0 whose index is
at distance zero from point(pi); the index is pi itself whenever pi is
the only index at distance zero (in particular whenever the stored points
are pairwise distinct under the metric). -/
theorem knn_contains_self {T : Tree P} (hWF : T.WF) {pi : ℕ} (hpi : pi < T.pts.length) :
    ∃ j, T.knn (T.point pi) 1 = [(0, j)] ∧ j < T.pts.length ∧
      qdist T (T.point pi) j = 0 ∧
      ((∀ j', j' < T.pts.length → qdist T (T.point pi) j' = 0 → j' = pi) → j = pi) := by
  have hv := knn_hv hWF (T.point pi) 1
  have hmem : pi ∈ (List.range T.pts.length).toFinset := by simp [hpi]
  have hcard : 0 < (List.range T.pts.length).toFinset.card :=
    Finset.card_pos.mpr ⟨pi, hmem⟩
  have hlen1 : (T.knn (T.point pi) 1).length = 1 := by
    rw [hv.hlen]; omega
  obtain ⟨e, hres⟩ := List.length_eq_one.mp hlen1
  have heq : e ∈ T.knn (T.point pi) 1 := by rw [hres]; simp
  have hq0 : qdist T (T.point pi) pi = 0 := by
    unfold qdist Tree.point
    exact T.M.d_self _
  have hent := hv.entries e heq
  have he1 : e.1 = 0 := by
    by_cases hin : pi ∈ (T.knn (T.point pi) 1).map Prod.snd
    · rw [hres] at hin
      have h2 : pi = e.2 := by simpa using hin
      rw [hent.1, ← h2]
      exact hq0
    · have hout := hv.outer pi hmem hin e heq
      have hge : 0 ≤ e.1 := by
        rw [hent.1]; exact T.M.d_nonneg _ _
      rw [hq0] at hout
      linarith
  have hee : e = (0, e.2) := Prod.ext he1 rfl
  refine ⟨e.2, by rw [hres, hee], ?_, ?_, ?_⟩
  · have h3 := hent.2
    simpa using h3
  · rw [← hent.1]; exact he1
  · intro huniq
    refine huniq e.2 (by simpa using hent.2) ?_
    rw [← hent.1]; exact he1

/-- Witness for the amended C3 at the four-point tree with pi = 0, where
the query point is unique, so the returned index is 0 itself. -/
theorem knn_contains_self_witness :
    t4.WF ∧ (0 : ℕ) < t4.pts.length ∧
      (∃ j, t4.knn (t4.point 0) 1 = [(0, j)] ∧ j < t4.pts.length ∧
        qdist t4 (t4.point 0) j = 0 ∧
        ((∀ j', j' < t4.pts.length → qdist t4 (t4.point 0) j' = 0 → j' = 0) → j = 0)) :=
  ⟨t4_WF, by decide, knn_contains_self (T := t4) t4_WF (by decide)⟩

/-- C5: routing_knn(q, k) is the k-NN search with the singletons excluded
from the candidate set — it answers exactly over the node centers (the
same validity and brute-force-scan agreement as knn, relative to the
center set); knn(q, k) answers over all stored points, which are exactly
the centers together with the singletons of the visited nodes. -/
theorem routing_knn_centers {T : Tree P} (hWF : T.WF) (q : P) (k : ℕ) :
    (ValidKnn T q k T.root.centers.toFinset (T.routing_knn q k) ∧
      (T.routing_knn q k).map Prod.fst = (brute T q k T.root.centers).map Prod.fst) ∧
    ValidKnn T q k (List.range T.pts.length).toFinset (T.knn q k) ∧
    (∀ p, p ∈ T.root.coverage ↔ p ∈ T.root.centers ∨ p ∈ T.root.singlesAll) := by
  refine ⟨⟨hv_to_valid (routing_hv hWF q k), ?_⟩, hv_to_valid (knn_hv hWF q k), ?_⟩
  · exact (valid_dists (hv_to_valid (routing_hv hWF q k))).trans
      (brute_dists T q k T.root.centers).symm
  · exact covEqCS T T.root hWF.2.1

/-- Witness for C5 at the four-point tree. -/
theorem routing_knn_centers_witness :
    t4.WF ∧
      ((ValidKnn t4 (0 : ℚ) 1 t4.root.centers.toFinset (t4.routing_knn (0 : ℚ) 1) ∧
        (t4.routing_knn (0 : ℚ) 1).map Prod.fst
          = (brute t4 (0 : ℚ) 1 t4.root.centers).map Prod.fst) ∧
      ValidKnn t4 (0 : ℚ) 1 (List.range t4.pts.length).toFinset (t4.knn (0 : ℚ) 1) ∧
      (∀ p, p ∈ t4.root.coverage ↔ p ∈ t4.root.centers ∨ p ∈ t4.root.singlesAll)) :=
  ⟨t4_WF, routing_knn_centers (T := t4) t4_WF (0 : ℚ) 1⟩

/-! Agreement of the stored lineage with the routing descent (C4). -/

theorem keyLt_asymm {a b : ℚ × ℕ} (h : keyLt a b) : ¬ keyLt b a := by
  rw [keyLt_iff_le_not_le] at *
  exact fun hc => h.2 hc.1

theorem bestChild_mem (T : Tree P) (q : P) :
    ∀ {ts : List CTree} {b : CTree}, bestChild T q ts = some b → b ∈ ts := by
  intro ts
  induction ts with
  | nil => intro b hb; simp [bestChild] at hb
  | cons t' ts' ih =>
    intro b hb
    rw [bestChild] at hb
    rcases hts : bestChild T q ts' with _ | b'
    · rw [hts] at hb
      simp at hb
      simp [hb]
    · rw [hts] at hb
      by_cases hc : keyLt (qdist T q b'.center, b'.center) (qdist T q t'.center, t'.center)
      · simp [hc] at hb
        exact List.mem_cons_of_mem _ (hb ▸ ih hts)
      · simp [hc] at hb
        simp [hb]

theorem bestChild_eq_of_min {T : Tree P} {q : P} :
    ∀ {ch : List CTree} {b : CTree}, b ∈ ch →
      (∀ u ∈ ch, u ≠ b →
        keyLt (qdist T q b.center, b.center) (qdist T q u.center, u.center)) →
      bestChild T q ch = some b := by
  intro ch
  induction ch with
  | nil => intro b hb; cases hb
  | cons t ts ih =>
    intro b hb hmin
    rw [bestChild]
    rcases List.mem_cons.mp hb with rfl | hb'
    · rcases hts : bestChild T q ts with _ | b''
      · simp only [hts]
      · simp only [hts]
        have hb''m : b'' ∈ ts := bestChild_mem T q hts
        by_cases hbb : b'' = b
        · subst hbb
          rw [if_neg (fun hc => keyLt_asymm hc hc)]
        · have h1 := hmin b'' (List.mem_cons_of_mem _ hb''m) hbb
          rw [if_neg (keyLt_asymm h1)]
    · have hIH : bestChild T q ts = some b :=
        ih hb' fun u hu hne => hmin u (List.mem_cons_of_mem _ hu) hne
      simp only [hIH]
      by_cases hbt : t = b
      · subst hbt
        rw [if_neg (fun hc => keyLt_asymm hc hc)]
      · rw [if_pos (hmin t (by simp) hbt)]

theorem cov_unique {pi : ℕ} :
    ∀ {ch : List CTree}, (CTree.coverageL ch).Nodup →
      ∀ {b : CTree}, b ∈ ch → pi ∈ b.coverage →
        ∀ u ∈ ch, pi ∈ u.coverage → u = b := by
  intro ch
  induction ch with
  | nil => intro _ b hb; cases hb
  | cons t ts ih =>
    intro hnd b hb hpib u hu hpiu
    rw [coverageL_cons] at hnd
    have hdisj := List.disjoint_of_nodup_append hnd
    rcases List.mem_cons.mp hb with rfl | hb' <;> rcases List.mem_cons.mp hu with rfl | hu'
    · rfl
    · exact absurd (mem_coverageL.mpr ⟨u, hu', hpiu⟩) (fun hc => hdisj hpib hc)
    · exact absurd (mem_coverageL.mpr ⟨b, hb', hpib⟩) (fun hc => hdisj hpiu hc)
    · exact ih hnd.of_append_right hb' hpib u hu' hpiu

theorem knownGoL_eq {T : Tree P} {pi : ℕ} :
    ∀ {ch : List CTree}, (CTree.coverageL ch).Nodup →
      ∀ {b : CTree}, b ∈ ch → pi ∈ b.coverage →
        knownGoL T pi ch = knownGo T pi b := by
  intro ch
  induction ch with
  | nil => intro _ b hb; cases hb
  | cons t ts ih =>
    intro hnd b hb hpib
    rw [knownGoL]
    by_cases hmem : pi ∈ t.coverage
    · rw [if_pos hmem, cov_unique hnd hb hpib t (by simp) hmem]
    · rw [if_neg hmem]
      rcases List.mem_cons.mp hb with rfl | hb'
      · exact absurd hpib hmem
      · rw [coverageL_cons] at hnd
        exact ih hnd.of_append_right hb' hpib

theorem knownGo_eq (T : Tree P) (pi : ℕ) :
    ∀ (t : CTree), wfb T t = true → pi ∈ t.coverage →
      knownGo T pi t = (routeGo T (pt T.pts pi) t).map fun e => (e.1, e.2.addr)
  | .mk s c ch sg, hw, hpi => by
    have hu := wfb_unpack hw
    rw [knownGo, routeGo]
    rcases hch : ch with _ | ⟨t1, ts1⟩
    · subst hch
      simp [bestChild, knownGoL, CTree.children, CTree.center, CTree.addr,
        CTree.si, qdist]
    · subst hch
      have hpi' : pi ∈ CTree.coverageL (t1 :: ts1) := by
        rw [coverage_node] at hpi; exact hpi
      obtain ⟨cstar, hcmem, hcpi⟩ := mem_coverageL.mp hpi'
      have hinj := List.inj_on_of_nodup_map hu.2.1
      have hmin : ∀ u ∈ t1 :: ts1, u ≠ cstar →
          keyLt (qdist T (pt T.pts pi) cstar.center, cstar.center)
            (qdist T (pt T.pts pi) u.center, u.center) := by
        intro u humem hne
        have hle := hu.2.2.2.2.2.2.2.1 cstar hcmem pi hcpi u humem
        rw [keyLt_iff_le_not_le]
        refine ⟨hle, fun hge => hne ?_⟩
        have heqk := antisymm hge (hu.2.2.2.2.2.2.2.1 cstar hcmem pi hcpi u humem)
        have hcc : u.center = cstar.center := congrArg Prod.snd heqk
        exact hinj humem hcmem hcc
      have hbc : bestChild T (pt T.pts pi) (CTree.children (.mk s c (t1 :: ts1) sg))
          = some cstar := by
        simp only [CTree.children]
        exact bestChild_eq_of_min hcmem hmin
      have hrec := knownGo_eq T pi cstar (hu.2.2.2.2.2.2.2.2 cstar hcmem) hcpi
      rw [knownGoL_eq hu.2.2.2.2.2.1 hcmem hcpi, hrec]
      simp only [CTree.center, CTree.addr, CTree.si, List.map_cons, qdist]
      split
      · next heq => rw [hbc] at heq; cases heq
      · next b heq =>
          rw [hbc] at heq
          injection heq with heq2
          rw [heq2]
termination_by t => sizeOf t
decreasing_by
  subst hch
  have h1 : sizeOf cstar < sizeOf (t1 :: ts1) := List.sizeOf_lt_of_mem hcmem
  have h2 : sizeOf (CTree.mk s c (t1 :: ts1) sg)
      = 1 + sizeOf s + sizeOf c + sizeOf (t1 :: ts1) + sizeOf sg := by
    simp
  omega

/-- C4: for every point index in the store of a well-formed built tree,
known_path(pi) returns the same (distance, address) sequence as
path(point(pi)) — exactly, so in particular with equal distances up to
floating-point tolerance. -/
theorem known_path_consistent {T : Tree P} (hWF : T.WF) {pi : ℕ}
    (hpi : pi < T.pts.length) :
    T.known_path pi = T.path (T.point pi) := by
  unfold Tree.known_path Tree.path Tree.point
  exact knownGo_eq T pi T.root hWF.2.1
    (hWF.2.2.mem_iff.mpr (List.mem_range.mpr hpi))

/-- Witness for C4 at the four-point tree with pi = 1. -/
theorem known_path_consistent_witness :
    t4.WF ∧ (1 : ℕ) < t4.pts.length ∧ t4.known_path 1 = t4.path (t4.point 1) :=
  ⟨t4_WF, by decide, known_path_consistent (T := t4) t4_WF (by decide)⟩

/-! Tracker evidence bookkeeping (C2). -/

theorem contribCount_cons (p : List ((Int × ℕ) × Bucket)) (w : List (List ((Int × ℕ) × Bucket)))
    (key : (Int × ℕ) × Bucket) :
    contribCount (p :: w) key = p.count key + contribCount w key := by
  simp [contribCount]

theorem contribCount_append (w1 w2 : List (List ((Int × ℕ) × Bucket)))
    (key : (Int × ℕ) × Bucket) :
    contribCount (w1 ++ w2) key = contribCount w1 key + contribCount w2 key := by
  simp [contribCount]

theorem evLookup_bump (e : Evd) (k k' : (Int × ℕ) × Bucket) (dv : ℚ) :
    evLookup (bump e k dv) k' = evLookup e k' + if k = k' then dv else 0 := by
  induction e with
  | nil =>
    by_cases hk : k = k' <;> simp [bump, evLookup, hk]
  | cons hd tl ih =>
    obtain ⟨k2, v⟩ := hd
    by_cases h2 : k2 = k
    · subst h2
      by_cases hk : k2 = k' <;> simp [bump, evLookup, hk]
    · by_cases hk : k2 = k'
      · subst hk
        have hkk : k ≠ k2 := fun hc => h2 hc.symm
        simp [bump, evLookup, h2, hkk]
      · simp [bump, evLookup, h2, hk, ih]

theorem evLookup_applyPath (p : List ((Int × ℕ) × Bucket)) :
    ∀ (e : Evd) (key : (Int × ℕ) × Bucket) (dv : ℚ),
      evLookup (applyPath e p dv) key = evLookup e key + dv * p.count key := by
  induction p with
  | nil => intro e key dv; simp [applyPath]
  | cons kb p ih =>
    intro e key dv
    have hstep : applyPath e (kb :: p) dv = applyPath (bump e kb dv) p dv := rfl
    rw [hstep, ih, evLookup_bump]
    by_cases hkb : kb = key <;> simp [List.count_cons, hkb] <;> ring

theorem evLookup_fold_dec (L : List (List ((Int × ℕ) × Bucket))) :
    ∀ (e : Evd) (key : (Int × ℕ) × Bucket) (dv : ℚ),
      evLookup (L.foldl (fun acc pp => applyPath acc pp dv) e) key
        = evLookup e key + dv * contribCount L key := by
  induction L with
  | nil => intro e key dv; simp [contribCount]
  | cons p L ih =>
    intro e key dv
    have hstep : (p :: L).foldl (fun acc pp => applyPath acc pp dv) e
        = L.foldl (fun acc pp => applyPath acc pp dv) (applyPath e p dv) := rfl
    rw [hstep, ih, evLookup_applyPath, contribCount_cons]
    push_cast
    ring

/-- C2: for every tracker and every stream of pushes, after each push the
window holds exactly the paths of the last window_size points (all points
when window_size is zero, the infinite window) and the evidence at every
(address, bucket) cell is exactly observation_weight times the number of
windowed paths through that cell — the per-point contributions of the
points currently in the window, with overflow pops restoring exactly what
the popped point contributed (here exactly, since arithmetic is modelled
exactly). -/
theorem tracker_evidence_exact (T : Tree P) (ow : ℚ) (wsize : ℕ) (xs : List P) :
    (pushList T ow wsize TrackerState.empty xs).window = expectedWindow T wsize xs ∧
    ∀ key, evLookup (pushList T ow wsize TrackerState.empty xs).evd key
      = ow * contribCount (pushList T ow wsize TrackerState.empty xs).window key := by
  induction xs using List.reverseRecOn with
  | nil =>
    constructor
    · simp [pushList, TrackerState.empty, expectedWindow]
    · intro key
      simp [pushList, TrackerState.empty, evLookup, contribCount]
  | append_singleton xs x ih =>
    obtain ⟨ihw, ihe⟩ := ih
    have hstep : pushList T ow wsize TrackerState.empty (xs ++ [x])
        = push T ow wsize (pushList T ow wsize TrackerState.empty xs) x := by
      simp [pushList]
    set s := pushList T ow wsize TrackerState.empty xs with hs
    set p := bucketPath T x with hp
    have hexp : expectedWindow T wsize (xs ++ [x])
        = (if wsize = 0 then p :: (xs.map (bucketPath T)).reverse
           else (p :: (xs.map (bucketPath T)).reverse).take wsize) := by
      simp [expectedWindow]
    rw [hstep]
    unfold push
    by_cases h0 : wsize = 0
    · subst h0
      simp only [ne_eq, not_true_eq_false, false_and, if_false]
      constructor
      · rw [hexp]
        simp only [if_pos rfl]
        rw [ihw]
        simp [expectedWindow]
      · intro key
        rw [evLookup_applyPath, ihe key, contribCount_cons]
        push_cast
        ring
    · -- finite window
      have hwin : s.window = ((xs.map (bucketPath T)).reverse).take wsize := by
        rw [ihw]; simp [expectedWindow, h0]
      have hwlen : s.window.length = min wsize (xs.map (bucketPath T)).reverse.length := by
        rw [hwin, List.length_take]
      by_cases hov : wsize < (p :: s.window).length
      · rw [if_pos ⟨h0, hov⟩]
        have hminw : min wsize (xs.map (bucketPath T)).reverse.length = wsize := by
          simp only [List.length_cons] at hov
          omega
        constructor
        · rw [hexp, if_neg h0]
          rcases Nat.exists_eq_add_of_lt (Nat.pos_of_ne_zero h0) with ⟨n, hn⟩
          have hw1 : wsize = n + 1 := by omega
          subst hw1
          rw [List.take_succ_cons, List.take_succ_cons, hwin, List.take_take]
          dsimp only
          rw [(by omega : n ⊓ (n + 1) = n)]
        · intro key
          rw [evLookup_fold_dec, evLookup_applyPath, ihe key]
          have hsplit : contribCount (p :: s.window) key
              = contribCount ((p :: s.window).take wsize) key
                + contribCount ((p :: s.window).drop wsize) key := by
            rw [← contribCount_append, List.take_append_drop]
          rw [contribCount_cons] at hsplit
          have hq : ((contribCount ((p :: s.window).take wsize) key : ℚ))
              = (p.count key : ℚ) + contribCount s.window key
                - contribCount ((p :: s.window).drop wsize) key := by
            have hq0 : (p.count key : ℚ) + contribCount s.window key
                = contribCount ((p :: s.window).take wsize) key
                  + contribCount ((p :: s.window).drop wsize) key := by
              exact_mod_cast hsplit
            linarith
          rw [hq]
          ring
      · rw [if_neg (fun hc => hov hc.2)]
        constructor
        · rw [hexp, if_neg h0]
          rcases Nat.exists_eq_add_of_lt (Nat.pos_of_ne_zero h0) with ⟨n, hn⟩
          have hw1 : wsize = n + 1 := by omega
          subst hw1
          rw [List.take_succ_cons, hwin]
          have hlen2 : (xs.map (bucketPath T)).reverse.length ≤ n := by
            simp only [List.length_cons] at hov
            omega
          rw [List.take_of_length_le hlen2, List.take_of_length_le (le_trans hlen2 (Nat.le_succ n))]
        · intro key
          rw [evLookup_applyPath, ihe key, contribCount_cons]
          push_cast
          ring

/-! Shape of the bucket-probability lists (C9) and the evidence accessor
(C10). -/

/-- C9: children_probs of a node holds exactly one None-address entry —
the singleton bucket — alongside one entry per child, and
marginal_posterior_probs of a tracker at a valid address returns a list
of the same shape, with its None-address singleton entry. -/
theorem children_probs_shape (n : CTree) (T : Tree P) (pw : ℚ) (s : TrackerState)
    (a : Int × ℕ) {m : CTree} (hm : nodeAt T.root a = some m) :
    ((children_probs n).countP (fun e => e.1.isNone) = 1 ∧
      (children_probs n).length = n.children.length + 1) ∧
    ∃ l, marginal_posterior_probs T pw s a = some l ∧
      l.countP (fun e => e.1.isNone) = 1 ∧ l.length = m.children.length + 1 := by
  constructor
  · constructor
    · rw [children_probs]
      simp only [List.countP_cons, Option.isNone_none, if_pos]
      have hz : (n.children.map fun c =>
          ((some c.addr : Bucket), (c.coverage.length : ℚ) /
            ((n.singles.length : ℚ) +
              (n.children.map fun c => ((c.coverage.length : ℚ))).sum))).countP
          (fun e => e.1.isNone) = 0 := by
        rw [List.countP_eq_zero]
        intro e he
        obtain ⟨c, _, rfl⟩ := List.mem_map.mp he
        simp
      simp [hz]
    · rw [children_probs]
      simp
  · rw [marginal_posterior_probs, hm]
    refine ⟨_, rfl, ?_, ?_⟩
    · rw [alphaPost]
      simp only [List.map_cons, List.zip_cons_cons, List.countP_cons,
        Option.isNone_none, if_pos]
      have hz : ∀ L : List ℚ,
          ((m.children.map fun c => (some c.addr : Bucket)).zip L).countP
            (fun e => e.1.isNone) = 0 := by
        intro L
        rw [List.countP_eq_zero]
        intro e he
        have h1 := (List.of_mem_zip he).1
        obtain ⟨c, _, hc⟩ := List.mem_map.mp h1
        rw [← hc]
        simp
      simp [hz]
    · rw [alphaPost]
      simp [List.length_zip]

/-- Witness for C9 at the root of the four-point tree with the empty
tracker. -/
theorem children_probs_shape_witness :
    nodeAt t4.root (0, 0) = some t4root ∧
      (((children_probs t4root).countP (fun e => e.1.isNone) = 1 ∧
        (children_probs t4root).length = t4root.children.length + 1) ∧
      ∃ l, marginal_posterior_probs t4 1 TrackerState.empty (0, 0) = some l ∧
        l.countP (fun e => e.1.isNone) = 1 ∧ l.length = t4root.children.length + 1) :=
  ⟨rfl, children_probs_shape t4root t4 1 TrackerState.empty (0, 0) rfl⟩

/-- C10: for a valid node address, tracker.evidence returns None — a
value, not an error — exactly when the tracker has accumulated no
evidence cell at that address, and otherwise returns the pair of the
per-child-bucket evidence list and the singleton-bucket evidence. -/
theorem evidence_accessor (T : Tree P) (ow : ℚ) (wsize : ℕ) (xs : List P)
    (a : Int × ℕ) {n : CTree} (hn : nodeAt T.root a = some n) :
    (TrackerState.evidence T (pushList T ow wsize TrackerState.empty xs) a = none
      ↔ ∀ kv ∈ (pushList T ow wsize TrackerState.empty xs).evd, kv.1.1 ≠ a) ∧
    ((∃ kv ∈ (pushList T ow wsize TrackerState.empty xs).evd, kv.1.1 = a) →
      TrackerState.evidence T (pushList T ow wsize TrackerState.empty xs) a
        = some ((n.children.map fun c => (c.addr,
            evLookup (pushList T ow wsize TrackerState.empty xs).evd (a, some c.addr))),
          evLookup (pushList T ow wsize TrackerState.empty xs).evd (a, none))) := by
  set s := pushList T ow wsize TrackerState.empty xs with hs
  by_cases hany : s.evd.any fun kv => decide (kv.1.1 = a)
  · rw [TrackerState.evidence, if_pos hany, hn]
    constructor
    · constructor
      · intro hc; cases hc
      · intro hall
        obtain ⟨kv, hkv, hkva⟩ := List.any_eq_true.mp hany
        exact absurd (of_decide_eq_true hkva) (hall kv hkv)
    · intro _; rfl
  · rw [TrackerState.evidence, if_neg hany]
    constructor
    · constructor
      · intro _ kv hkv hkva
        exact hany (List.any_eq_true.mpr ⟨kv, hkv, decide_eq_true hkva⟩)
      · intro _; rfl
    · intro ⟨kv, hkv, hkva⟩
      exact absurd (List.any_eq_true.mpr ⟨kv, hkv, decide_eq_true hkva⟩) hany

/-- Witness for C10 at the four-point tree with the empty stream: no
evidence has accumulated, so the accessor returns None. -/
theorem evidence_accessor_witness :
    nodeAt t4.root (0, 0) = some t4root ∧
      ((TrackerState.evidence t4 (pushList t4 1 3 TrackerState.empty []) (0, 0) = none
        ↔ ∀ kv ∈ (pushList t4 1 3 TrackerState.empty []).evd, kv.1.1 ≠ (0, 0)) ∧
      ((∃ kv ∈ (pushList t4 1 3 TrackerState.empty []).evd, kv.1.1 = (0, 0)) →
        TrackerState.evidence t4 (pushList t4 1 3 TrackerState.empty []) (0, 0)
          = some ((t4root.children.map fun c => (c.addr,
              evLookup (pushList t4 1 3 TrackerState.empty []).evd ((0, 0), some c.addr))),
            evLookup (pushList t4 1 3 TrackerState.empty []).evd ((0, 0), none)))) :=
  ⟨rfl, evidence_accessor t4 1 3 [] (0, 0) rfl⟩

/-! Normalization of live statistics against the baseline (C7) and the
baseline call signature (C8). -/

/-- C7: the spec's normalization formula — divide the centered statistic
by the baseline standard deviation when the variance is positive — is
implemented faithfully by ember_chronological_drift.py's normalize, but
gaussian_drift.py's and gmm_test.py's unpack_stats compute the quotient
into a variable they never use and append the raw difference instead: at
live statistic 3, baseline mean 1 and variance 4 they append 2 where the
spec's formula gives 1. -/
theorem normalization_code_bug :
    (∀ stat mean variance : ℝ,
      normalize_entry stat mean variance = normalized_stat_spec stat mean variance) ∧
    unpack_stats_entry 3 1 4 = 2 ∧ normalized_stat_spec 3 1 4 = 1 ∧
    unpack_stats_entry 3 1 4 ≠ normalized_stat_spec 3 1 4 := by
  have h4 : Real.sqrt 4 = 2 := by
    rw [show (4 : ℝ) = 2 ^ 2 by norm_num, Real.sqrt_sq (by norm_num)]
  have hu : unpack_stats_entry 3 1 4 = 2 := by
    rw [unpack_stats_entry]
    norm_num
  have hs : normalized_stat_spec 3 1 4 = 1 := by
    rw [normalized_stat_spec]
    norm_num [h4]
  refine ⟨fun stat mean variance => rfl, hu, hs, ?_⟩
  rw [hu, hs]
  norm_num

/-- C8 counterexample: the test suites pass six positional arguments to
kl_div_dirichlet_baseline, not the five the claim lists. -/
theorem baseline_five_params_cex :
    call_test_one_d_viz.length = 6 ∧ baselineSpecParams.length = 5 ∧
    call_test_one_d_viz ≠ baselineSpecParams := by
  decide

open BaselineArg in
/-- C8 (amended): every test call site passes kl_div_dirichlet_baseline
the six positional arguments (prior_weight, observation_weight,
sequence_len, sequence_count, window_size, sample_rate), a strict
extension of the claim's five-parameter signature; the example scripts
do pass five arguments — ember_chronological_drift.py exactly the
claim's five, gaussian_drift.py with the sequence_len ceiling in place
of window_size. -/
theorem baseline_signature :
    call_test_one_d_viz = baselineSixParams ∧ call_gmm_test = baselineSixParams ∧
    call_ember2018 = baselineSixParams ∧
    baselineSixParams.length = 6 ∧ baselineSpecParams.length = 5 ∧
    baselineSpecParams ≠ baselineSixParams ∧
    call_ember_drift = baselineSpecParams ∧
    call_gaussian_drift =
      [prior_weight, observation_weight, sequence_len, sequence_count, sample_rate] := by
  decide


/-! Nonnegativity of the reported Dirichlet KL divergences (C6): the
closed-form KL is the Bregman divergence of the Dirichlet log-normalizer,
whose convexity comes from the joint log-convexity of the Beta integral
(Hölder's inequality). -/

open MeasureTheory Set Real

theorem IbetaIntegrable {x y : ℝ} (hx : 0 < x) (hy : 0 < y) :
    IntegrableOn (fun t : ℝ => t ^ (x - 1) * (1 - t) ^ (y - 1)) (Ioo 0 1) := by
  have h := (Complex.betaIntegral_convergent (u := (x : ℂ)) (v := (y : ℂ))
    (by simpa using hx) (by simpa using hy)).1
  have h2 : IntegrableOn (fun t : ℝ =>
      (t : ℂ) ^ ((x : ℂ) - 1) * (1 - (t : ℂ)) ^ ((y : ℂ) - 1)) (Ioo 0 1) volume :=
    h.mono_set Ioo_subset_Ioc_self
  have h3 := h2.re
  refine h3.congr ?_
  refine Filter.eventuallyEq_of_mem (self_mem_ae_restrict measurableSet_Ioo) fun t ht => ?_
  have ht0 : (0 : ℝ) ≤ t := le_of_lt ht.1
  have ht1 : (0 : ℝ) ≤ 1 - t := by linarith [ht.2]
  have e1 : ((t : ℂ)) ^ ((x : ℂ) - 1) = ((t ^ (x - 1) : ℝ) : ℂ) := by
    rw [Complex.ofReal_cpow ht0]
    push_cast
    ring_nf
  have e2 : (1 - (t : ℂ)) ^ ((y : ℂ) - 1) = (((1 - t) ^ (y - 1) : ℝ) : ℂ) := by
    rw [Complex.ofReal_cpow ht1]
    push_cast
    ring_nf
  simp only [e1, e2, ← Complex.ofReal_mul]
  simp [RCLike.re_to_complex]

theorem Ibeta_eq_Gamma {x y : ℝ} (hx : 0 < x) (hy : 0 < y) :
    Real.Gamma x * Real.Gamma y = Real.Gamma (x + y) * Ibeta x y := by
  have h := Complex.Gamma_mul_Gamma_eq_betaIntegral (s := (x : ℂ)) (t := (y : ℂ))
    (by simpa using hx) (by simpa using hy)
  have hb : Complex.betaIntegral (x : ℂ) (y : ℂ) = ((Ibeta x y : ℝ) : ℂ) := by
    rw [Complex.betaIntegral, intervalIntegral.integral_of_le zero_le_one,
      MeasureTheory.integral_Ioc_eq_integral_Ioo]
    rw [show (∫ t in Ioo (0:ℝ) 1, (t : ℂ) ^ ((x : ℂ) - 1) * (1 - (t : ℂ)) ^ ((y : ℂ) - 1))
        = ∫ t in Ioo (0:ℝ) 1, ((t ^ (x - 1) * (1 - t) ^ (y - 1) : ℝ) : ℂ) from ?_]
    · exact integral_ofReal
    · refine setIntegral_congr_fun measurableSet_Ioo fun t ht => ?_
      have ht0 : (0 : ℝ) ≤ t := le_of_lt ht.1
      have ht1 : (0 : ℝ) ≤ 1 - t := by linarith [ht.2]
      have e1 : ((t : ℂ)) ^ ((x : ℂ) - 1) = ((t ^ (x - 1) : ℝ) : ℂ) := by
        rw [Complex.ofReal_cpow ht0]; push_cast; ring_nf
      have e2 : (1 - (t : ℂ)) ^ ((y : ℂ) - 1) = (((1 - t) ^ (y - 1) : ℝ) : ℂ) := by
        rw [Complex.ofReal_cpow ht1]; push_cast; ring_nf
      rw [e1, e2, ← Complex.ofReal_mul]
  rw [Complex.Gamma_ofReal, Complex.Gamma_ofReal, hb, show ((x : ℂ) + (y : ℂ)) = ((x + y : ℝ) : ℂ)
    by push_cast; ring, Complex.Gamma_ofReal, ← Complex.ofReal_mul, ← Complex.ofReal_mul] at h
  exact_mod_cast h

theorem Ibeta_pos {x y : ℝ} (hx : 0 < x) (hy : 0 < y) : 0 < Ibeta x y := by
  have h := Ibeta_eq_Gamma hx hy
  have h1 : 0 < Real.Gamma x := Real.Gamma_pos_of_pos hx
  have h2 : 0 < Real.Gamma y := Real.Gamma_pos_of_pos hy
  have h3 : 0 < Real.Gamma (x + y) := Real.Gamma_pos_of_pos (by linarith)
  have h4 : Ibeta x y = Real.Gamma x * Real.Gamma y / Real.Gamma (x + y) := by
    field_simp at h ⊢
    linarith [h]
  rw [h4]
  positivity

theorem gBeta_eq_log_Ibeta {x y : ℝ} (hx : 0 < x) (hy : 0 < y) :
    gBeta x y = Real.log (Ibeta x y) := by
  have h1 : 0 < Real.Gamma x := Real.Gamma_pos_of_pos hx
  have h2 : 0 < Real.Gamma y := Real.Gamma_pos_of_pos hy
  have h3 : 0 < Real.Gamma (x + y) := Real.Gamma_pos_of_pos (by linarith)
  have h := Ibeta_eq_Gamma hx hy
  have hI : Ibeta x y = Real.Gamma x * Real.Gamma y / Real.Gamma (x + y) := by
    field_simp at h ⊢
    linarith [h]
  rw [gBeta, lgam, lgam, lgam, hI, Real.log_div (by positivity) h3.ne',
    Real.log_mul h1.ne' h2.ne']

theorem Ibeta_convex_mul {s t u v a b : ℝ} (hs : 0 < s) (ht : 0 < t) (hu : 0 < u)
    (hv : 0 < v) (ha : 0 < a) (hb : 0 < b) (hab : a + b = 1) :
    Ibeta (a * s + b * u) (a * t + b * v) ≤ Ibeta s t ^ a * Ibeta u v ^ b := by
  let f : ℝ → ℝ → ℝ → ℝ → ℝ := fun c p q x => x ^ (c * (p - 1)) * (1 - x) ^ (c * (q - 1))
  have e : Real.IsConjExponent (1 / a) (1 / b) := Real.isConjExponent_one_div ha hb hab
  have posf : ∀ c p q x : ℝ, x ∈ Ioo (0 : ℝ) 1 → 0 ≤ f c p q x := fun c p q x hx =>
    mul_nonneg (rpow_nonneg hx.1.le _) (rpow_nonneg (by linarith [hx.2] : (0 : ℝ) ≤ 1 - x) _)
  have posf' : ∀ c p q : ℝ, ∀ᵐ x : ℝ ∂volume.restrict (Ioo 0 1), 0 ≤ f c p q x :=
    fun c p q => (ae_restrict_iff' measurableSet_Ioo).mpr (ae_of_all _ (posf c p q))
  have fpow : ∀ {c x : ℝ}, 0 < c → ∀ (p q : ℝ), x ∈ Ioo (0 : ℝ) 1 →
      x ^ (p - 1) * (1 - x) ^ (q - 1) = f c p q x ^ (1 / c) := by
    intro c x hc p q hx
    have hx1 : (0 : ℝ) ≤ 1 - x := by linarith [hx.2]
    dsimp only [f]
    rw [mul_rpow (rpow_nonneg hx.1.le _) (rpow_nonneg hx1 _),
      ← rpow_mul hx.1.le, ← rpow_mul hx1]
    congr 2 <;> field_simp
  have f_mem_Lp : ∀ {c p q : ℝ}, 0 < c → 0 < p → 0 < q →
      Memℒp (f c p q) (ENNReal.ofReal (1 / c)) (volume.restrict (Ioo 0 1)) := by
    intro c p q hc hp hq
    have A : ENNReal.ofReal (1 / c) ≠ 0 := by
      rwa [Ne, ENNReal.ofReal_eq_zero, not_le, one_div_pos]
    have B : ENNReal.ofReal (1 / c) ≠ ⊤ := ENNReal.ofReal_ne_top
    rw [← memℒp_norm_rpow_iff _ A B, ENNReal.toReal_ofReal (one_div_nonneg.mpr hc.le),
      ENNReal.div_self A B, memℒp_one_iff_integrable]
    · apply Integrable.congr (IbetaIntegrable hp hq)
      refine Filter.eventuallyEq_of_mem (self_mem_ae_restrict measurableSet_Ioo) fun x hx => ?_
      dsimp only
      rw [fpow hc p q hx]
      congr 1
      exact (norm_of_nonneg (posf _ _ _ x hx)).symm
    · refine ContinuousOn.aestronglyMeasurable ?_ measurableSet_Ioo
      refine continuousOn_of_forall_continuousAt fun x hx => ?_
      refine ContinuousAt.mul ?_ ?_
      · exact continuousAt_rpow_const _ _ (Or.inl hx.1.ne')
      · exact ContinuousAt.comp
          (continuousAt_rpow_const _ _ (Or.inl (sub_pos.mpr hx.2).ne'))
          ((continuous_const.sub continuous_id).continuousAt)
  rw [Ibeta, Ibeta, Ibeta]
  convert MeasureTheory.integral_mul_le_Lp_mul_Lq_of_nonneg e (posf' a s t) (posf' b u v)
    (f_mem_Lp ha hs ht) (f_mem_Lp hb hu hv) using 1
  · refine setIntegral_congr_fun measurableSet_Ioo fun x hx => ?_
    dsimp only [f]
    have hx1 : (0 : ℝ) < 1 - x := by linarith [hx.2]
    have B1 : x ^ (a * s + b * u - 1) = x ^ (a * (s - 1)) * x ^ (b * (u - 1)) := by
      rw [← rpow_add hx.1]
      have hexp : a * (s - 1) + b * (u - 1) = a * s + b * u - (a + b) := by ring
      rw [hexp, hab]
    have B2 : (1 - x) ^ (a * t + b * v - 1)
        = (1 - x) ^ (a * (t - 1)) * (1 - x) ^ (b * (v - 1)) := by
      rw [← rpow_add hx1]
      have hexp : a * (t - 1) + b * (v - 1) = a * t + b * v - (a + b) := by ring
      rw [hexp, hab]
    rw [B1, B2]
    ring
  · rw [one_div_one_div, one_div_one_div]
    congr 2 <;> exact setIntegral_congr_fun measurableSet_Ioo fun x hx => fpow (by assumption) _ _ hx

theorem gBeta_convex_ineq {s t u v a b : ℝ} (hs : 0 < s) (ht : 0 < t) (hu : 0 < u)
    (hv : 0 < v) (ha : 0 < a) (hb : 0 < b) (hab : a + b = 1) :
    gBeta (a * s + b * u) (a * t + b * v) ≤ a * gBeta s t + b * gBeta u v := by
  have h1 : 0 < a * s + b * u := by positivity
  have h2 : 0 < a * t + b * v := by positivity
  rw [gBeta_eq_log_Ibeta h1 h2, gBeta_eq_log_Ibeta hs ht, gBeta_eq_log_Ibeta hu hv,
    ← Real.log_rpow (Ibeta_pos hs ht), ← Real.log_rpow (Ibeta_pos hu hv), ← Real.log_mul
      (Real.rpow_pos_of_pos (Ibeta_pos hs ht) a).ne'
      (Real.rpow_pos_of_pos (Ibeta_pos hu hv) b).ne']
  exact Real.log_le_log (Ibeta_pos h1 h2) (Ibeta_convex_mul hs ht hu hv ha hb hab)

theorem comboL_sum (L : List (ℝ × ℝ)) (t : ℝ) :
    (comboL L t).sum
      = (L.map Prod.snd).sum + t * ((L.map Prod.fst).sum - (L.map Prod.snd).sum) := by
  induction L with
  | nil => simp [comboL]
  | cons p L ih =>
    simp only [comboL, List.map_cons, List.sum_cons] at ih ⊢
    rw [ih]
    ring

theorem potential_cons (x : ℝ) (l : List ℝ) :
    potential (x :: l) = gBeta x l.sum + potential l := by
  simp only [potential, gBeta, List.map_cons, List.sum_cons]
  ring

theorem affine_pos {a b t : ℝ} (ha : 0 < a) (hb : 0 < b) (h0 : 0 ≤ t) (h1 : t ≤ 1) :
    0 < b + t * (a - b) := by
  rcases eq_or_lt_of_le h0 with h | h
  · rw [← h]; simpa using hb
  · nlinarith [mul_pos h ha, mul_nonneg (sub_nonneg.mpr h1) hb.le]

theorem hasDerivAt_list_sum {α : Type} (L : List α) (F : α → ℝ → ℝ) (D : α → ℝ) (t : ℝ)
    (h : ∀ p ∈ L, HasDerivAt (F p) (D p) t) :
    HasDerivAt (fun u => (L.map fun p => F p u).sum) ((L.map D).sum) t := by
  induction L with
  | nil => simpa using hasDerivAt_const t (0 : ℝ)
  | cons p L ih =>
    simp only [List.map_cons, List.sum_cons]
    exact (h p (List.mem_cons_self p L)).add (ih fun q hq => h q (List.mem_cons_of_mem p hq))

theorem hasDerivAt_lgam {x : ℝ} (hx : 0 < x) : HasDerivAt lgam (digam x) x := by
  have hne : ∀ m : ℕ, x ≠ -m := by
    intro m hc
    have hm : (0 : ℝ) ≤ (m : ℝ) := Nat.cast_nonneg m
    rw [hc] at hx
    linarith
  have hdiff : DifferentiableAt ℝ lgam x :=
    (Real.differentiableAt_Gamma hne).log (Real.Gamma_pos_of_pos hx).ne'
  exact hdiff.hasDerivAt

theorem hasDerivAt_lgam_affine {b d t : ℝ} (h : 0 < b + t * d) :
    HasDerivAt (fun u => lgam (b + u * d)) (digam (b + t * d) * d) t := by
  have h1 : HasDerivAt (fun u : ℝ => b + u * d) d t := by
    simpa using ((hasDerivAt_id t).mul_const d).const_add b
  exact (hasDerivAt_lgam h).comp t h1

theorem convexOn_potential_comboL (L : List (ℝ × ℝ)) (hL : ∀ p ∈ L, 0 < p.1 ∧ 0 < p.2) :
    ConvexOn ℝ (Icc (0 : ℝ) 1) (fun t => potential (comboL L t)) := by
  induction L with
  | nil =>
    have h0 : (fun t : ℝ => potential (comboL [] t)) = fun _ => potential [] := rfl
    rw [h0]
    exact convexOn_const _ (convex_Icc 0 1)
  | cons p L ih =>
    have hp := hL p (List.mem_cons_self p L)
    have hrest : ∀ q ∈ L, 0 < q.1 ∧ 0 < q.2 := fun q hq => hL q (List.mem_cons_of_mem p hq)
    have hcons : (fun t => potential (comboL (p :: L) t))
        = fun t => gBeta (p.2 + t * (p.1 - p.2)) ((comboL L t).sum) + potential (comboL L t) := by
      funext t
      have hc : comboL (p :: L) t = (p.2 + t * (p.1 - p.2)) :: comboL L t := rfl
      rw [hc, potential_cons]
    rw [hcons]
    refine ConvexOn.add ?_ (ih hrest)
    rcases eq_or_ne L [] with hnil | hne
    · subst hnil
      have hconst : (fun t : ℝ => gBeta (p.2 + t * (p.1 - p.2)) ((comboL [] t).sum))
          = fun _ => 0 := by
        funext t
        have h0 : (comboL ([] : List (ℝ × ℝ)) t).sum = 0 := rfl
        rw [h0, gBeta]
        simp [lgam, Real.Gamma_zero]
      rw [hconst]
      exact convexOn_const _ (convex_Icc 0 1)
    · have hS1 : 0 < (L.map Prod.fst).sum := by
        refine List.sum_pos _ (fun x hx => ?_) (by simpa using hne)
        obtain ⟨q, hq, rfl⟩ := List.mem_map.mp hx
        exact (hrest q hq).1
      have hS2 : 0 < (L.map Prod.snd).sum := by
        refine List.sum_pos _ (fun x hx => ?_) (by simpa using hne)
        obtain ⟨q, hq, rfl⟩ := List.mem_map.mp hx
        exact (hrest q hq).2
      refine convexOn_iff_forall_pos.mpr ⟨convex_Icc 0 1, fun x hx y hy c d hc hd hcd => ?_⟩
      have hux : 0 < p.2 + x * (p.1 - p.2) := affine_pos hp.1 hp.2 hx.1 hx.2
      have huy : 0 < p.2 + y * (p.1 - p.2) := affine_pos hp.1 hp.2 hy.1 hy.2
      have hvx : 0 < (comboL L x).sum := by
        rw [comboL_sum]; exact affine_pos hS1 hS2 hx.1 hx.2
      have hvy : 0 < (comboL L y).sum := by
        rw [comboL_sum]; exact affine_pos hS1 hS2 hy.1 hy.2
      have hu : p.2 + (c * x + d * y) * (p.1 - p.2)
          = c * (p.2 + x * (p.1 - p.2)) + d * (p.2 + y * (p.1 - p.2)) := by
        have hh : c * (p.2 + x * (p.1 - p.2)) + d * (p.2 + y * (p.1 - p.2))
            = (c + d) * p.2 + (c * x + d * y) * (p.1 - p.2) := by ring
        rw [hh, hcd, one_mul]
      have hv : (comboL L (c * x + d * y)).sum
          = c * (comboL L x).sum + d * (comboL L y).sum := by
        simp only [comboL_sum]
        have hh : c * ((L.map Prod.snd).sum + x * ((L.map Prod.fst).sum - (L.map Prod.snd).sum))
            + d * ((L.map Prod.snd).sum + y * ((L.map Prod.fst).sum - (L.map Prod.snd).sum))
            = (c + d) * (L.map Prod.snd).sum
              + (c * x + d * y) * ((L.map Prod.fst).sum - (L.map Prod.snd).sum) := by ring
        rw [hh, hcd, one_mul]
      simp only [smul_eq_mul]
      rw [hu, hv]
      exact gBeta_convex_ineq hux hvx huy hvy hc hd hcd

theorem klPair_nonneg (L : List (ℝ × ℝ)) (hL : ∀ p ∈ L, 0 < p.1 ∧ 0 < p.2) :
    0 ≤ potential (L.map Prod.fst) - potential (L.map Prod.snd)
        - ((L.map fun p => digam p.2 * (p.1 - p.2)).sum
            - digam ((L.map Prod.snd).sum)
              * ((L.map Prod.fst).sum - (L.map Prod.snd).sum)) := by
  rcases eq_or_ne L [] with rfl | hne
  · simp [potential, lgam, Real.Gamma_zero]
  · have hS1 : 0 < (L.map Prod.fst).sum := by
      refine List.sum_pos _ (fun x hx => ?_) (by simpa using hne)
      obtain ⟨q, hq, rfl⟩ := List.mem_map.mp hx
      exact (hL q hq).1
    have hS2 : 0 < (L.map Prod.snd).sum := by
      refine List.sum_pos _ (fun x hx => ?_) (by simpa using hne)
      obtain ⟨q, hq, rfl⟩ := List.mem_map.mp hx
      exact (hL q hq).2
    set ψ := fun t : ℝ => potential (comboL L t) with hψ
    set D : ℝ := (L.map fun p => digam p.2 * (p.1 - p.2)).sum
      - digam ((L.map Prod.snd).sum) * ((L.map Prod.fst).sum - (L.map Prod.snd).sum) with hD
    have hψ0 : ψ 0 = potential (L.map Prod.snd) := by
      show potential (comboL L 0) = potential (L.map Prod.snd)
      congr 1
      rw [comboL]
      exact List.map_congr_left fun p _ => by ring
    have hψ1 : ψ 1 = potential (L.map Prod.fst) := by
      show potential (comboL L 1) = potential (L.map Prod.fst)
      congr 1
      rw [comboL]
      exact List.map_congr_left fun p _ => by ring
    have hψeq : ψ = fun t => (L.map fun p => lgam (p.2 + t * (p.1 - p.2))).sum
        - lgam ((L.map Prod.snd).sum
            + t * ((L.map Prod.fst).sum - (L.map Prod.snd).sum)) := by
      funext t
      show potential (comboL L t) = _
      rw [potential, comboL_sum]
      congr 1
      rw [comboL, List.map_map]
      rfl
    have hderiv : HasDerivAt ψ D 0 := by
      rw [hψeq, hD]
      refine HasDerivAt.sub ?_ ?_
      · refine hasDerivAt_list_sum L _ _ 0 fun p hp => ?_
        have h := hasDerivAt_lgam_affine (b := p.2) (d := p.1 - p.2) (t := 0)
          (by simpa using (hL p hp).2)
        simpa using h
      · have h := hasDerivAt_lgam_affine (b := (L.map Prod.snd).sum)
          (d := (L.map Prod.fst).sum - (L.map Prod.snd).sum) (t := 0) (by simpa using hS2)
        simpa using h
    have hcvx := convexOn_potential_comboL L hL
    have hslope : ∀ t ∈ Ioc (0 : ℝ) 1, slope ψ 0 t ≤ ψ 1 - ψ 0 := by
      intro t ht
      have h01 : (0 : ℝ) ∈ Icc (0 : ℝ) 1 := ⟨le_refl 0, zero_le_one⟩
      have h11 : (1 : ℝ) ∈ Icc (0 : ℝ) 1 := ⟨zero_le_one, le_refl 1⟩
      have hcomb := hcvx.2 h01 h11 (by linarith [ht.2] : (0 : ℝ) ≤ 1 - t) ht.1.le
        (by ring : (1 - t) + t = 1)
      simp only [smul_eq_mul, mul_zero, mul_one, zero_add] at hcomb
      rw [slope_def_field, sub_zero, div_le_iff₀ ht.1]
      nlinarith [hcomb]
    have htend : Filter.Tendsto (slope ψ 0) (nhdsWithin 0 (Ioi 0)) (nhds D) :=
      (hasDerivAt_iff_tendsto_slope.mp hderiv).mono_left
        (nhdsWithin_mono 0 fun y hy => Set.mem_compl_singleton_iff.mpr (ne_of_gt hy))
    have hD_le : D ≤ ψ 1 - ψ 0 :=
      le_of_tendsto htend (Filter.eventually_of_mem
        (Ioc_mem_nhdsWithin_Ioi ⟨le_refl 0, zero_lt_one⟩) hslope)
    linarith [hD_le, hψ0, hψ1]

theorem klPair_sum_eq (L : List (ℝ × ℝ)) (c : ℝ) :
    ((L.map fun x => (x.2 - x.1) * (digam x.2 - c)).sum
      - (L.map fun x => lgam x.2 - lgam x.1).sum)
    = (((L.map Prod.fst).map lgam).sum - ((L.map Prod.snd).map lgam).sum)
      - ((L.map fun p => digam p.2 * (p.1 - p.2)).sum
          - c * ((L.map Prod.fst).sum - (L.map Prod.snd).sum)) := by
  induction L with
  | nil => simp
  | cons p L ih =>
    simp only [List.map_cons, List.sum_cons]
    linear_combination ih

theorem klPair_eq (L : List (ℝ × ℝ)) :
    dirichletKl (L.map Prod.fst) (L.map Prod.snd)
      = potential (L.map Prod.fst) - potential (L.map Prod.snd)
        - ((L.map fun p => digam p.2 * (p.1 - p.2)).sum
            - digam ((L.map Prod.snd).sum)
              * ((L.map Prod.fst).sum - (L.map Prod.snd).sum)) := by
  have hzip : (L.map Prod.fst).zip (L.map Prod.snd) = L := by
    rw [← List.unzip_fst, ← List.unzip_snd, List.zip_unzip]
  rw [dirichletKl, potential, potential, hzip]
  linear_combination klPair_sum_eq L (digam ((L.map Prod.snd).sum))

theorem dirichletKl_nonneg {as bs : List ℝ} (hlen : as.length = bs.length)
    (ha : ∀ x ∈ as, 0 < x) (hb : ∀ x ∈ bs, 0 < x) : 0 ≤ dirichletKl as bs := by
  set L := as.zip bs with hL
  have hfst : L.map Prod.fst = as := List.map_fst_zip as bs (le_of_eq hlen)
  have hsnd : L.map Prod.snd = bs := List.map_snd_zip as bs (le_of_eq hlen.symm)
  have hpos : ∀ p ∈ L, 0 < p.1 ∧ 0 < p.2 := by
    intro p hp
    constructor
    · exact ha p.1 (by rw [← hfst]; exact List.mem_map_of_mem _ hp)
    · exact hb p.2 (by rw [← hsnd]; exact List.mem_map_of_mem _ hp)
  have h := klPair_nonneg L hpos
  rw [← hfst, ← hsnd, klPair_eq L]
  exact h

theorem epsClamp_pos : 0 < epsClamp := by
  rw [epsClamp]
  positivity

theorem clampL_pos (l : List ℚ) : ∀ x ∈ clampL l, 0 < x := by
  intro x hx
  obtain ⟨v, _, rfl⟩ := List.mem_map.mp hx
  exact lt_of_lt_of_le epsClamp_pos (le_max_left _ _)

theorem reported_kl_nonneg_any (T : Tree P) (pw : ℚ) (s : TrackerState) (a : Int × ℕ) :
    0 ≤ reported_kl T pw s a := by
  cases h : nodeAt T.root a with
  | none => simp [reported_kl, h]
  | some n =>
    simp only [reported_kl, h]
    refine dirichletKl_nonneg ?_ (clampL_pos _) (clampL_pos _)
    rw [clampL, clampL, List.length_map, List.length_map, alphaPrior, alphaPost]
    simp

/-- C6: for every tracker state reached by any stream of pushes and
every address, the per-node KL divergence the tracker reports — through
the per-address accessor and through all_kl — is nonnegative; ln-Gamma
and digamma are evaluated only on the weight vectors clamped at
2 to the minus twentieth power, as reported_kl does via clampL. -/
theorem kl_nonneg (T : Tree P) (pw ow : ℚ) (wsize : ℕ) (xs : List P) (a : Int × ℕ) :
    0 ≤ reported_kl T pw (pushList T ow wsize TrackerState.empty xs) a ∧
    ∀ e ∈ all_kl T pw (pushList T ow wsize TrackerState.empty xs), 0 ≤ e.1 := by
  refine ⟨reported_kl_nonneg_any T pw _ a, fun e he => ?_⟩
  simp only [all_kl, List.mem_map] at he
  obtain ⟨b, _, rfl⟩ := he
  exact reported_kl_nonneg_any T pw _ b


end Goko
